import Mathlib

/-!
Verification development for the `libts` state module of the tsui repository.

The embedding below follows the current variant of the module (the file whose
`GetState` classifies peers into `ExitNodes` / `MyNodes` / `TaggedNodes` /
`OwnedNodes`).  Go-specific conventions are modelled explicitly:

* `status.Peer` is a Go map; its iteration order is unspecified by Go and may
  differ between runs on the same map.  The embedded `Status.Peer` field is a
  `List`, recording one concrete iteration order; "the same map" corresponds to
  permuted lists (with the same entries).
* `status.User` and `state.OwnedNodes` are Go maps; they are embedded as
  association lists with unique keys, and map indexing is `mapLookup`.
* Go's `int64` arithmetic wraps; `i64add` adds with two's-complement wrapping.
* Pointer types become `Option`; dereferencing a `nil` pointer is a runtime
  panic, modelled by the `GoPanic` error of `classifyPeers` / `GetState`.
  A Go `(State, error)` return value is modelled by `State × Option String`.
* `slices.SortFunc` sorts by the comparator but is not guaranteed stable; the
  embedding uses `List.insertionSort`, one admissible comparator-respecting
  refinement of it.
-/

namespace Libts

/-- Backend lifecycle phases (`ipn.State`), a closed enumeration. -/
inductive IPNState where
  | NoState
  | InUseOtherUser
  | NeedsLogin
  | NeedsMachineAuth
  | Stopped
  | Starting
  | Running
deriving DecidableEq, Repr

/-- `tailcfg.UserProfile`, restricted to the fields the module reads.
The zero value of the Go struct has empty strings in both fields. -/
structure UserProfile where
  DisplayName : String
  LoginName : String
deriving DecidableEq, Repr

/-- The zero value of `tailcfg.UserProfile` (what a Go map index returns for a
missing key). -/
def zeroUserProfile : UserProfile :=
  { DisplayName := "", LoginName := "" }

/-- `ipnstate.PeerStatus`, restricted to the fields the module reads.
`Tags` models the peer's ACL tag list (`nil` slice vs present slice). -/
structure PeerStatus where
  ID : String
  UserID : Int
  DNSName : String
  HostName : String
  ExitNodeOption : Bool
  Tags : Option (List String)
  RxBytes : Int
  TxBytes : Int
deriving DecidableEq, Repr

/-- `ipnstate.PeerStatus.IsTagged` from the tailscale library (an external
dependency of the module): true iff the tag list is present and non-empty. -/
def PeerStatus.IsTagged (p : PeerStatus) : Bool :=
  match p.Tags with
  | none => false
  | some ts => ts.length > 0

/-- Modelled from the spec: `PeerName` is the libts display-name resolver
("resolves a peer's best human-readable name, e.g. hostname or DNS name");
its definition is not among the provided source files.  It is a pure function
of the peer's name source fields: the DNS name, falling back to the host name
when the DNS name is empty. -/
def PeerName (p : PeerStatus) : String :=
  if p.DNSName = "" then p.HostName else p.DNSName

/-- `ipnstate.ExitNodeStatus`, restricted to the `ID` field. -/
structure ExitNodeStatus where
  ID : String
deriving DecidableEq, Repr

/-- `ipnstate.Status`, restricted to the fields the module reads.
`Peer` is the iteration order of the Go map `status.Peer`; `User` is the
user directory map `tailcfg.UserID → tailcfg.UserProfile` as an association
list. -/
structure Status where
  BackendState : String
  AuthURL : String
  Version : String
  Self : Option PeerStatus
  Peer : List PeerStatus
  User : List (Int × UserProfile)
  ExitNodeStatus : Option ExitNodeStatus
deriving DecidableEq, Repr

/-- `key.NLPublic`, a tailnet-lock public key (opaque bytes, embedded as a
natural number). -/
structure NLPublic where
  val : Nat
deriving DecidableEq, Repr

/-- `key.NLPublic.IsZero`: true iff the key is the zero value. -/
def NLPublic.IsZero (k : NLPublic) : Bool :=
  k.val = 0

/-- `ipnstate.NetworkLockStatus`, restricted to the fields the module reads.
`NodeKey` is a pointer in Go, hence an `Option`. -/
structure NetworkLockStatus where
  Enabled : Bool
  NodeKey : Option Nat
  PublicKey : NLPublic
  NodeKeySigned : Bool
deriving DecidableEq, Repr

/-- `ipn.Prefs`, passed through the module unmodified (opaque blob). -/
structure Prefs where
  WantRunning : Bool
deriving DecidableEq, Repr

/-- Go runtime panics that the embedded code can hit. -/
inductive GoPanic where
  | nilPointerDeref
deriving DecidableEq, Repr

instance decEqExcept {ε α : Type} [DecidableEq ε] [DecidableEq α] :
    DecidableEq (Except ε α) := fun a b =>
  match a, b with
  | .error e, .error f =>
    if h : e = f then isTrue (by rw [h]) else isFalse (fun hh => h (Except.error.inj hh))
  | .error _, .ok _ => isFalse (fun hh => Except.noConfusion hh)
  | .ok _, .error _ => isFalse (fun hh => Except.noConfusion hh)
  | .ok x, .ok y =>
    if h : x = y then isTrue (by rw [h]) else isFalse (fun hh => h (Except.ok.inj hh))

/-- Go map indexing (comma-ok form): the value stored under the key, if any. -/
def mapLookup {α β : Type} [DecidableEq α] : List (α × β) → α → Option β
  | [], _ => none
  | (k', v) :: rest, k => if k = k' then some v else mapLookup rest k

/-- The sanitized `State` struct produced by `GetState` (current variant).
`OwnedNodes` is the Go map keyed by account name, as an association list in
first-insertion order. -/
structure State where
  Prefs : Option Prefs
  BackendState : IPNState
  TSVersion : String
  AuthURL : String
  User : Option UserProfile
  Self : Option PeerStatus
  LockKey : Option NLPublic
  IsLockedOut : Bool
  ExitNodes : List PeerStatus
  MyNodes : List PeerStatus
  TaggedNodes : List PeerStatus
  OwnedNodeKeys : List String
  OwnedNodes : List (String × List PeerStatus)
  CurrentExitNode : Option String
  CurrentExitNodeName : String
  RxBytes : Int
  TxBytes : Int
deriving DecidableEq, Repr

/-- The zero value of `State` (what Go returns alongside an error). -/
def zeroState : State :=
  { Prefs := none
    BackendState := .NoState
    TSVersion := ""
    AuthURL := ""
    User := none
    Self := none
    LockKey := none
    IsLockedOut := false
    ExitNodes := []
    MyNodes := []
    TaggedNodes := []
    OwnedNodeKeys := []
    OwnedNodes := []
    CurrentExitNode := none
    CurrentExitNodeName := ""
    RxBytes := 0
    TxBytes := 0 }

/-- Lexicographic comparison of character lists (`strings.Compare(a, b) <= 0`:
Go compares strings by bytes, which for valid UTF-8 coincides with comparing
code points). -/
def charListLe : List Char → List Char → Bool
  | [], _ => true
  | _ :: _, [] => false
  | a :: as, b :: bs =>
    if a.toNat < b.toNat then true
    else if b.toNat < a.toNat then false
    else charListLe as bs

/-- The string order used by `slices.Sort` / `strings.Compare`, as a `≤`
relation. -/
def strLe (a b : String) : Prop :=
  charListLe a.data b.data = true

instance : DecidableRel strLe :=
  fun a b => inferInstanceAs (Decidable (charListLe a.data b.data = true))

instance : IsTotal String strLe :=
  ⟨fun a b => by
    have H : ∀ as bs : List Char, charListLe as bs = true ∨ charListLe bs as = true := by
      intro as
      induction as with
      | nil => intro bs; left; rfl
      | cons x xs ih =>
        intro bs
        cases bs with
        | nil => right; rfl
        | cons y ys =>
          by_cases h1 : x.toNat < y.toNat
          · left; simp [charListLe, h1]
          · by_cases h2 : y.toNat < x.toNat
            · right; simp [charListLe, h2]
            · simpa [charListLe, h1, h2] using ih ys
    exact H a.data b.data⟩

instance : IsTrans String strLe :=
  ⟨fun a b c hab hbc => by
    have H : ∀ as bs cs : List Char, charListLe as bs = true → charListLe bs cs = true →
        charListLe as cs = true := by
      intro as
      induction as with
      | nil => intro bs cs _ _; rfl
      | cons x xs ih =>
        intro bs cs hab hbc
        cases bs with
        | nil => simp [charListLe] at hab
        | cons y ys =>
          cases cs with
          | nil => simp [charListLe] at hbc
          | cons z zs =>
            simp only [charListLe] at hab hbc ⊢
            by_cases hxy : x.toNat < y.toNat
            · by_cases hyz : y.toNat < z.toNat
              · have hxz : x.toNat < z.toNat := Nat.lt_trans hxy hyz
                rw [if_pos hxz]
              · by_cases hzy : z.toNat < y.toNat
                · rw [if_neg hyz, if_pos hzy] at hbc
                  exact Bool.noConfusion hbc
                · have hxz : x.toNat < z.toNat := by omega
                  rw [if_pos hxz]
            · by_cases hyx : y.toNat < x.toNat
              · rw [if_neg hxy, if_pos hyx] at hab
                exact Bool.noConfusion hab
              · rw [if_neg hxy, if_neg hyx] at hab
                by_cases hyz : y.toNat < z.toNat
                · have hxz : x.toNat < z.toNat := by omega
                  rw [if_pos hxz]
                · by_cases hzy : z.toNat < y.toNat
                  · rw [if_neg hyz, if_pos hzy] at hbc
                    exact Bool.noConfusion hbc
                  · rw [if_neg hyz, if_neg hzy] at hbc
                    have hxz : ¬ x.toNat < z.toNat := by omega
                    have hzx : ¬ z.toNat < x.toNat := by omega
                    rw [if_neg hxz, if_neg hzx]
                    exact ih ys zs hab hbc
    exact H a.data b.data c.data hab hbc⟩

instance : IsAntisymm String strLe :=
  ⟨fun a b hab hba => by
    have H : ∀ as bs : List Char, charListLe as bs = true → charListLe bs as = true →
        as = bs := by
      intro as
      induction as with
      | nil =>
        intro bs _ h2
        cases bs with
        | nil => rfl
        | cons y ys => exact Bool.noConfusion h2
      | cons x xs ih =>
        intro bs h1 h2
        cases bs with
        | nil => exact Bool.noConfusion h1
        | cons y ys =>
          simp only [charListLe] at h1 h2
          by_cases hxy : x.toNat < y.toNat
          · have hyx : ¬ y.toNat < x.toNat := by omega
            rw [if_neg hyx, if_pos hxy] at h2
            exact Bool.noConfusion h2
          · by_cases hyx : y.toNat < x.toNat
            · rw [if_neg hxy, if_pos hyx] at h1
              exact Bool.noConfusion h1
            · rw [if_neg hxy, if_neg hyx] at h1
              rw [if_neg hyx, if_neg hxy] at h2
              have hxyeq : x = y := by
                have : x.toNat = y.toNat := by omega
                exact Char.eq_of_val_eq (UInt32.toNat.inj this)
              rw [hxyeq, ih ys h1 h2]
    have hdata : a.data = b.data := H a.data b.data hab hba
    cases a
    cases b
    exact congrArg String.mk hdata⟩

/-- The display-name comparator used by `sortNodes`
(`strings.Compare(PeerName(a), PeerName(b))` as a `≤` relation). -/
def peerLe (a b : PeerStatus) : Prop :=
  strLe (PeerName a) (PeerName b)

instance : DecidableRel peerLe :=
  fun a b => inferInstanceAs (Decidable (strLe (PeerName a) (PeerName b)))

instance : IsTotal PeerStatus peerLe :=
  ⟨fun a b => total_of strLe (PeerName a) (PeerName b)⟩

instance : IsTrans PeerStatus peerLe :=
  ⟨fun a b c hab hbc => trans_of strLe hab hbc⟩

/-- `sortNodes`: sort a list of peer statuses by `PeerName`
(`slices.SortFunc` with the `strings.Compare` comparator; `insertionSort` is
one admissible comparator-respecting refinement). -/
def sortNodes (nodes : List PeerStatus) : List PeerStatus :=
  List.insertionSort peerLe nodes

/-- `NewIPNStateFromString`: map the wire tag to the closed enumeration, or
report the unknown tag (`fmt.Errorf("unknown ipn state: %s", v)`). -/
def NewIPNStateFromString (v : String) : Except String IPNState :=
  if v = "NoState" then .ok .NoState
  else if v = "InUseOtherUser" then .ok .InUseOtherUser
  else if v = "NeedsLogin" then .ok .NeedsLogin
  else if v = "NeedsMachineAuth" then .ok .NeedsMachineAuth
  else if v = "Stopped" then .ok .Stopped
  else if v = "Starting" then .ok .Starting
  else if v = "Running" then .ok .Running
  else .error ("unknown ipn state: " ++ v)

/-- Two's-complement wrapping of an integer into the `int64` range. -/
def wrap64 (x : Int) : Int :=
  (x + 9223372036854775808) % 18446744073709551616 - 9223372036854775808

/-- Go `int64` addition (wraps on overflow). -/
def i64add (a b : Int) : Int :=
  wrap64 (a + b)

/-- The account name a rule-4 peer is bucketed under: the owning user's
display name, falling back to the login name when the display name is empty,
and to the zero value `""` when the owner is missing from the directory. -/
def accountNameFor (userDir : List (Int × UserProfile)) (uid : Int) : String :=
  match mapLookup userDir uid with
  | some user => if user.DisplayName = "" then user.LoginName else user.DisplayName
  | none => ""

/-- Append a peer to the `OwnedNodes` bucket for `k`
(`state.OwnedNodes[accountName] = append(state.OwnedNodes[accountName], peer)`,
creating the bucket on first use). -/
def appendOwned (m : List (String × List PeerStatus)) (k : String) (p : PeerStatus) :
    List (String × List PeerStatus) :=
  match m with
  | [] => [(k, [p])]
  | (k', v) :: rest =>
    if k = k' then (k', v ++ [p]) :: rest else (k', v) :: appendOwned rest k p

/-- Accumulator of the classification loop of `GetState`: the traffic totals
and the four bucket families, in insertion order (pre-sort). -/
structure ClassifyAcc where
  RxBytes : Int
  TxBytes : Int
  ExitNodes : List PeerStatus
  MyNodes : List PeerStatus
  TaggedNodes : List PeerStatus
  OwnedNodes : List (String × List PeerStatus)
deriving DecidableEq, Repr

/-- The accumulator at loop entry (`State{... OwnedNodes: make(map...)}`). -/
def initAcc : ClassifyAcc :=
  { RxBytes := 0
    TxBytes := 0
    ExitNodes := []
    MyNodes := []
    TaggedNodes := []
    OwnedNodes := [] }

/-- One iteration of the classification loop.  The traffic counters are
accumulated for every peer; the peer is then placed by the first matching
rule.  Rule 2 reads `status.Self.UserID`: when `Self` is `nil` this is a nil
pointer dereference, a runtime panic. -/
def classifyStep (selfOpt : Option PeerStatus) (userDir : List (Int × UserProfile))
    (acc : ClassifyAcc) (peer : PeerStatus) : Except GoPanic ClassifyAcc :=
  let acc := { acc with
                TxBytes := i64add acc.TxBytes peer.TxBytes
                RxBytes := i64add acc.RxBytes peer.RxBytes }
  if peer.ExitNodeOption then
    .ok { acc with ExitNodes := acc.ExitNodes ++ [peer] }
  else
    match selfOpt with
    | none => .error .nilPointerDeref
    | some self =>
      if peer.UserID = self.UserID then
        .ok { acc with MyNodes := acc.MyNodes ++ [peer] }
      else if peer.IsTagged then
        .ok { acc with TaggedNodes := acc.TaggedNodes ++ [peer] }
      else
        .ok { acc with
              OwnedNodes := appendOwned acc.OwnedNodes (accountNameFor userDir peer.UserID) peer }

/-- The classification loop (`for _, peer := range status.Peer`), run over one
iteration order of the peer map. -/
def classifyPeers (selfOpt : Option PeerStatus) (userDir : List (Int × UserProfile)) :
    ClassifyAcc → List PeerStatus → Except GoPanic ClassifyAcc
  | acc, [] => .ok acc
  | acc, peer :: rest =>
    match classifyStep selfOpt userDir acc peer with
    | .error e => .error e
    | .ok acc' => classifyPeers selfOpt userDir acc' rest

/-- `strings.IndexByte(s, '-')`: index of the first `'-'`, if any. -/
def indexOfDash : List Char → Option Nat
  | [] => none
  | c :: cs => if c = '-' then some 0 else (indexOfDash cs).map (· + 1)

/-- Version normalization (`state.TSVersion = state.TSVersion[:versionSplitIndex]`
when a `'-'` is present, otherwise unchanged). -/
def normalizeVersion (s : String) : String :=
  match indexOfDash s.data with
  | some i => ⟨s.data.take i⟩
  | none => s

/-- Sort every `OwnedNodes` bucket in place
(`for key, value := range state.OwnedNodes { sortNodes(value) ... }`). -/
def sortOwned (m : List (String × List PeerStatus)) : List (String × List PeerStatus) :=
  m.map (fun kv => (kv.1, sortNodes kv.2))

/-- Assemble the final `State` from the inputs, the resolved backend state and
the classification result: sort all buckets, collect and sort the owned-node
keys, normalize the version, resolve the local user, evaluate the tailnet
lock, and resolve the current exit node. -/
def buildState (status : Status) (prefs : Option Prefs) (lock : NetworkLockStatus)
    (backendState : IPNState) (acc : ClassifyAcc) : State :=
  let exitNodes := sortNodes acc.ExitNodes
  { Prefs := prefs
    BackendState := backendState
    TSVersion := normalizeVersion status.Version
    AuthURL := status.AuthURL
    User :=
      match status.Self with
      | some self => some ((mapLookup status.User self.UserID).getD zeroUserProfile)
      | none => none
    Self := status.Self
    LockKey :=
      if lock.Enabled && lock.NodeKey.isSome && !(NLPublic.IsZero lock.PublicKey) then
        some lock.PublicKey
      else none
    IsLockedOut :=
      if lock.Enabled && lock.NodeKey.isSome && !(NLPublic.IsZero lock.PublicKey) then
        !lock.NodeKeySigned && decide (backendState = IPNState.Running)
      else false
    ExitNodes := exitNodes
    MyNodes := sortNodes acc.MyNodes
    TaggedNodes := sortNodes acc.TaggedNodes
    OwnedNodeKeys := List.insertionSort strLe (acc.OwnedNodes.map Prod.fst)
    OwnedNodes := sortOwned acc.OwnedNodes
    CurrentExitNode :=
      match status.ExitNodeStatus with
      | some es => some es.ID
      | none => none
    CurrentExitNodeName :=
      match status.ExitNodeStatus with
      | some es =>
        match exitNodes.find? (fun p => decide (p.ID = es.ID)) with
        | some p => PeerName p
        | none => ""
      | none => ""
    RxBytes := acc.RxBytes
    TxBytes := acc.TxBytes }

/-- The bucket stored under account name `k` (empty if the key is absent,
matching Go's zero-value map read). -/
def bucketOf (m : List (String × List PeerStatus)) (k : String) : List PeerStatus :=
  (mapLookup m k).getD []

/-- All peers stored in the `OwnedNodes` buckets, in bucket order. -/
def joinOwned (m : List (String × List PeerStatus)) : List PeerStatus :=
  (m.map Prod.snd).join

/-- All peers placed so far by the classification loop, across the four
bucket families. -/
def bag (acc : ClassifyAcc) : List PeerStatus :=
  acc.ExitNodes ++ acc.MyNodes ++ acc.TaggedNodes ++ joinOwned acc.OwnedNodes

/-- List-level core of `normalizeVersion` (the version string as a character
list). -/
def normList (l : List Char) : List Char :=
  match indexOfDash l with
  | some i => l.take i
  | none => l

/-- `GetState` (current variant), starting after the three fetches
(status, preferences, lock status) have succeeded; fetch failures return
before this logic runs.  The result models Go's `(State, error)` pair, under
an `Except` that records a runtime panic if one happens. -/
def GetState (status : Status) (prefs : Option Prefs) (lock : NetworkLockStatus) :
    Except GoPanic (State × Option String) :=
  match NewIPNStateFromString status.BackendState with
  | .error e => .ok (zeroState, some ("cannot get status from state: " ++ e))
  | .ok backendState =>
    match classifyPeers status.Self status.User initAcc status.Peer with
    | .error p => .error p
    | .ok acc => .ok (buildState status prefs lock backendState acc, none)

/-! Concrete inputs used by witnesses and counterexamples. -/

/-- A lock status with tailnet lock disabled (all other fields zero). -/
def lockOff : NetworkLockStatus :=
  { Enabled := false, NodeKey := none, PublicKey := ⟨0⟩, NodeKeySigned := false }

/-- A status whose backend-state tag is not in the closed enumeration. -/
def statusWeird : Status :=
  { BackendState := "Weird", AuthURL := "", Version := "1.70.0", Self := none,
    Peer := [], User := [], ExitNodeStatus := none }

/-- A peer that is not exit-node-capable (it reaches classification rule 2). -/
def peerOwnedByOther : PeerStatus :=
  { ID := "p1", UserID := 200, DNSName := "other", HostName := "",
    ExitNodeOption := false, Tags := none, RxBytes := 1, TxBytes := 2 }

/-- A status with a recognized tag, a `nil` self peer, and one peer that is
not exit-node-capable. -/
def statusNilSelf : Status :=
  { BackendState := "Running", AuthURL := "", Version := "1.70.0", Self := none,
    Peer := [peerOwnedByOther], User := [], ExitNodeStatus := none }

/-- A user directory with a named account and an account whose display name
is empty (login-name fallback). -/
def userDirEx : List (Int × UserProfile) :=
  [(100, { DisplayName := "Alice", LoginName := "alice@example.com" }),
   (300, { DisplayName := "", LoginName := "bob@example.com" })]

/-- The local self peer (owned by user 100). -/
def peerSelfEx : PeerStatus :=
  { ID := "self", UserID := 100, DNSName := "me", HostName := "",
    ExitNodeOption := false, Tags := none, RxBytes := 0, TxBytes := 0 }

/-- An exit-node-capable peer (classification rule 1). -/
def peerExitEx : PeerStatus :=
  { ID := "e1", UserID := 100, DNSName := "exit", HostName := "",
    ExitNodeOption := true, Tags := none, RxBytes := 10, TxBytes := 1 }

/-- A peer owned by the local user (classification rule 2). -/
def peerMineEx : PeerStatus :=
  { ID := "m1", UserID := 100, DNSName := "mine", HostName := "",
    ExitNodeOption := false, Tags := none, RxBytes := 20, TxBytes := 2 }

/-- A tagged peer owned by another user (classification rule 3). -/
def peerTaggedEx : PeerStatus :=
  { ID := "t1", UserID := 300, DNSName := "srv", HostName := "",
    ExitNodeOption := false, Tags := some ["tag:server"], RxBytes := 30, TxBytes := 3 }

/-- An untagged peer owned by user 300 (classification rule 4, login-name
fallback bucket). -/
def peerBobEx : PeerStatus :=
  { ID := "o1", UserID := 300, DNSName := "bob-node", HostName := "",
    ExitNodeOption := false, Tags := none, RxBytes := 40, TxBytes := 4 }

/-- An untagged peer whose owner is missing from the user directory
(classification rule 4, unknown-owner bucket). -/
def peerUnknownEx : PeerStatus :=
  { ID := "u1", UserID := 400, DNSName := "ghost", HostName := "",
    ExitNodeOption := false, Tags := none, RxBytes := 50, TxBytes := 5 }

/-- A status exercising every classification rule, with a selected exit
node. -/
def statusEx : Status :=
  { BackendState := "Running", AuthURL := "", Version := "1.70.0-t1",
    Self := some peerSelfEx,
    Peer := [peerBobEx, peerExitEx, peerTaggedEx, peerMineEx, peerUnknownEx],
    User := userDirEx,
    ExitNodeStatus := some ⟨"e1"⟩ }

/-- A lock status with tailnet lock enabled, a node key present, a non-zero
public key and an unsigned node key. -/
def lockOn : NetworkLockStatus :=
  { Enabled := true, NodeKey := some 7, PublicKey := ⟨5⟩, NodeKeySigned := false }

/-- The state computed by `GetState` on `statusEx` (zero state if that run
failed; the witnesses prove it did not). -/
def stEx : State :=
  match GetState statusEx none lockOn with
  | .ok (st, _) => st
  | .error _ => zeroState

/-- A self peer whose owning user is missing from the user directory. -/
def peerNoOwner : PeerStatus :=
  { ID := "self2", UserID := 999, DNSName := "lonely", HostName := "",
    ExitNodeOption := false, Tags := none, RxBytes := 0, TxBytes := 0 }

/-- A status whose self peer is present but whose owner id has no entry in
the user directory. -/
def statusNoOwner : Status :=
  { BackendState := "Stopped", AuthURL := "", Version := "1.60.1", Self := some peerNoOwner,
    Peer := [], User := [], ExitNodeStatus := none }

/-- The state computed by `GetState` on `statusNoOwner` (zero state if that
run failed; the witnesses prove it did not). -/
def stNoOwner : State :=
  match GetState statusNoOwner none lockOff with
  | .ok (st, _) => st
  | .error _ => zeroState

/-- An exit-capable peer; its display name ties with `peerTieB`. -/
def peerTieA : PeerStatus :=
  { ID := "a", UserID := 1, DNSName := "same-name", HostName := "",
    ExitNodeOption := true, Tags := none, RxBytes := 0, TxBytes := 0 }

/-- A distinct exit-capable peer with the same display name as `peerTieA`. -/
def peerTieB : PeerStatus :=
  { ID := "b", UserID := 1, DNSName := "same-name", HostName := "",
    ExitNodeOption := true, Tags := none, RxBytes := 0, TxBytes := 0 }

/-- One iteration order of a two-peer map with tied display names. -/
def statusTie1 : Status :=
  { BackendState := "Running", AuthURL := "", Version := "1.70.0", Self := none,
    Peer := [peerTieA, peerTieB], User := [], ExitNodeStatus := none }

/-- The other iteration order of the same two-peer map. -/
def statusTie2 : Status :=
  { BackendState := "Running", AuthURL := "", Version := "1.70.0", Self := none,
    Peer := [peerTieB, peerTieA], User := [], ExitNodeStatus := none }

/-- `statusEx` under a different iteration order of the same peer map. -/
def statusExPerm : Status :=
  { statusEx with Peer := [peerUnknownEx, peerMineEx, peerTaggedEx, peerExitEx, peerBobEx] }

/-- The state computed by `GetState` on `statusExPerm` (zero state if that
run failed; the witnesses prove it did not). -/
def stExPerm : State :=
  match GetState statusExPerm none lockOn with
  | .ok (st, _) => st
  | .error _ => zeroState

/-! ## Helper lemmas -/

theorem normalizeVersion_eq (s : String) : normalizeVersion s = ⟨normList s.data⟩ := by
  unfold normalizeVersion normList
  cases indexOfDash s.data <;> rfl

theorem normList_nil : normList [] = [] := rfl

theorem normList_cons (c : Char) (cs : List Char) :
    normList (c :: cs) = if c = '-' then [] else c :: normList cs := by
  have hstep : indexOfDash (c :: cs) =
      if c = '-' then some 0 else (indexOfDash cs).map (· + 1) := rfl
  by_cases h : c = '-'
  · subst h
    unfold normList
    rw [hstep]
    simp
  · rw [if_neg h]
    unfold normList
    rw [hstep, if_neg h]
    cases indexOfDash cs <;> rfl

theorem normList_of_not_mem {l : List Char} (h : '-' ∉ l) : normList l = l := by
  induction l with
  | nil => rfl
  | cons c cs ih =>
    rw [normList_cons]
    have hc : ¬ c = '-' := fun e => h (by simp [e])
    rw [if_neg hc, ih (fun hm => h (List.mem_cons_of_mem _ hm))]

theorem normList_not_mem (l : List Char) : '-' ∉ normList l := by
  induction l with
  | nil => simp [normList_nil]
  | cons c cs ih =>
    rw [normList_cons]
    by_cases hc : c = '-'
    · simp [hc]
    · rw [if_neg hc]
      simp only [List.mem_cons, not_or]
      exact ⟨fun e => hc e.symm, ih⟩

theorem normList_append_of_mem {l : List Char} (h : '-' ∈ l) :
    ∃ rest, l = normList l ++ '-' :: rest := by
  induction l with
  | nil => cases h
  | cons c cs ih =>
    rw [normList_cons]
    by_cases hc : c = '-'
    · exact ⟨cs, by simp [hc]⟩
    · have hm : '-' ∈ cs := by
        rcases List.mem_cons.mp h with e | hm
        · exact absurd e.symm hc
        · exact hm
      rcases ih hm with ⟨rest, hr⟩
      refine ⟨rest, ?_⟩
      rw [if_neg hc, List.cons_append]
      exact congrArg (c :: ·) hr

theorem normList_idem (l : List Char) : normList (normList l) = normList l := by
  induction l with
  | nil => rfl
  | cons c cs ih =>
    rw [normList_cons]
    by_cases hc : c = '-'
    · rw [if_pos hc]; rfl
    · rw [if_neg hc, normList_cons, if_neg hc, ih]

theorem normalizeVersion_idem (s : String) :
    normalizeVersion (normalizeVersion s) = normalizeVersion s := by
  rw [normalizeVersion_eq s, normalizeVersion_eq ⟨normList s.data⟩]
  show (⟨normList (normList s.data)⟩ : String) = ⟨normList s.data⟩
  rw [normList_idem]

theorem GetState_ok {status : Status} {prefs : Option Prefs} {lock : NetworkLockStatus}
    {st : State} (h : GetState status prefs lock = .ok (st, none)) :
    ∃ bs acc, NewIPNStateFromString status.BackendState = .ok bs ∧
      classifyPeers status.Self status.User initAcc status.Peer = .ok acc ∧
      st = buildState status prefs lock bs acc := by
  unfold GetState at h
  cases hbs : NewIPNStateFromString status.BackendState with
  | error e => rw [hbs] at h; simp at h
  | ok bs =>
    rw [hbs] at h
    cases hc : classifyPeers status.Self status.User initAcc status.Peer with
    | error p => rw [hc] at h; cases h
    | ok acc =>
      rw [hc] at h
      simp only [Except.ok.injEq, Prod.mk.injEq] at h
      exact ⟨bs, acc, rfl, rfl, h.1.symm⟩

/-! ## Claims -/

/-- C5: For every raw version string, the version normalization in `GetState`
outputs the substring before the first `'-'` delimiter, or the whole string
unchanged if no `'-'` is present; consequently the normalization is
idempotent, with `"1.70.0-abc123"` normalizing to `"1.70.0"` and `"1.70.0"`
normalizing to itself; and the `TSVersion` field of every successfully built
state is the normalization of the raw version of the input status. -/
theorem C5_version_normalization :
    (∀ s : String, '-' ∉ s.data → normalizeVersion s = s) ∧
    (∀ s : String, '-' ∈ s.data →
      ∃ rest, s.data = (normalizeVersion s).data ++ '-' :: rest ∧
        '-' ∉ (normalizeVersion s).data) ∧
    (∀ s : String, normalizeVersion (normalizeVersion s) = normalizeVersion s) ∧
    normalizeVersion "1.70.0-abc123" = "1.70.0" ∧
    normalizeVersion "1.70.0" = "1.70.0" ∧
    (∀ status prefs lock st, GetState status prefs lock = .ok (st, none) →
      st.TSVersion = normalizeVersion status.Version) := by
  refine ⟨?_, ?_, normalizeVersion_idem, by decide, by decide, ?_⟩
  · intro s h
    rw [normalizeVersion_eq]
    show (⟨normList s.data⟩ : String) = s
    rw [normList_of_not_mem h]
  · intro s h
    rw [normalizeVersion_eq]
    show ∃ rest, s.data = normList s.data ++ '-' :: rest ∧ '-' ∉ normList s.data
    rcases normList_append_of_mem h with ⟨rest, hr⟩
    exact ⟨rest, hr, normList_not_mem _⟩
  · intro status prefs lock st h
    rcases GetState_ok h with ⟨bs, acc, _, _, hst⟩
    rw [hst]
    rfl

/-- C5 witness: the theorem applied at the concrete input `"1.70.0"`. -/
theorem C5_version_normalization_witness : normalizeVersion "1.70.0" = "1.70.0" :=
  C5_version_normalization.1 "1.70.0" (by decide)

/-- C8: For every backend-state tag string outside the closed seven-element
set, `NewIPNStateFromString` returns an error whose message includes the
offending tag (no default value is substituted) and `GetState` then aborts,
returning the zero `State` together with that (wrapped) error and no partial
snapshot; for each of the seven recognized tags it returns the corresponding
enum value with no error. -/
theorem C8_unknown_backend_state :
    (∀ v : String,
      v ∉ (["NoState", "InUseOtherUser", "NeedsLogin", "NeedsMachineAuth",
            "Stopped", "Starting", "Running"] : List String) →
      NewIPNStateFromString v = .error ("unknown ipn state: " ++ v) ∧
      ∀ status prefs lock, status.BackendState = v →
        GetState status prefs lock =
          .ok (zeroState,
            some ("cannot get status from state: " ++ ("unknown ipn state: " ++ v)))) ∧
    NewIPNStateFromString "NoState" = .ok .NoState ∧
    NewIPNStateFromString "InUseOtherUser" = .ok .InUseOtherUser ∧
    NewIPNStateFromString "NeedsLogin" = .ok .NeedsLogin ∧
    NewIPNStateFromString "NeedsMachineAuth" = .ok .NeedsMachineAuth ∧
    NewIPNStateFromString "Stopped" = .ok .Stopped ∧
    NewIPNStateFromString "Starting" = .ok .Starting ∧
    NewIPNStateFromString "Running" = .ok .Running := by
  refine ⟨?_, rfl, rfl, rfl, rfl, rfl, rfl, rfl⟩
  intro v hv
  simp only [List.mem_cons, List.not_mem_nil, or_false, not_or] at hv
  obtain ⟨h1, h2, h3, h4, h5, h6, h7⟩ := hv
  have herr : NewIPNStateFromString v = .error ("unknown ipn state: " ++ v) := by
    unfold NewIPNStateFromString
    rw [if_neg h1, if_neg h2, if_neg h3, if_neg h4, if_neg h5, if_neg h6, if_neg h7]
  refine ⟨herr, ?_⟩
  intro status prefs lock hbs
  unfold GetState
  rw [hbs, herr]

/-- C8 witness: the theorem applied at the concrete unrecognized tag
`"Weird"`. -/
theorem C8_unknown_backend_state_witness :
    GetState statusWeird none lockOff =
      .ok (zeroState,
        some ("cannot get status from state: " ++ ("unknown ipn state: " ++ "Weird"))) :=
  (C8_unknown_backend_state.1 "Weird" (by decide)).2 statusWeird none lockOff rfl

/-- C2: evaluation of `GetState` at the failing input: a status whose fetches
all succeeded and whose backend-state tag `"Running"` is recognized, but
whose self peer is `nil` while the peer list contains a peer that is not
exit-node-capable.  Classification rule 2 dereferences `status.Self.UserID`,
so the run ends in a nil-pointer-dereference panic instead of returning a
snapshot — contradicting the claim that construction is total even when the
self peer is absent. -/
theorem C2_nil_self_panics :
    GetState statusNilSelf none lockOff = .error .nilPointerDeref := by rfl

theorem perm_snoc_append {α : Type} (X Y : List α) (p : α) :
    List.Perm ((X ++ [p]) ++ Y) ((X ++ Y) ++ [p]) := by
  rw [List.append_assoc, List.append_assoc]
  exact List.Perm.append_left X List.perm_append_comm

theorem joinOwned_cons (k : String) (v : List PeerStatus)
    (rest : List (String × List PeerStatus)) :
    joinOwned ((k, v) :: rest) = v ++ joinOwned rest := rfl

theorem joinOwned_appendOwned (m : List (String × List PeerStatus)) (k : String)
    (p : PeerStatus) :
    List.Perm (joinOwned (appendOwned m k p)) (joinOwned m ++ [p]) := by
  induction m with
  | nil =>
    show List.Perm (joinOwned [(k, [p])]) (joinOwned [] ++ [p])
    rw [joinOwned_cons]
    exact List.Perm.refl _
  | cons kv rest ih =>
    obtain ⟨k', v⟩ := kv
    unfold appendOwned
    by_cases h : k = k'
    · rw [if_pos h, joinOwned_cons, joinOwned_cons]
      exact perm_snoc_append v (joinOwned rest) p
    · rw [if_neg h, joinOwned_cons, joinOwned_cons, List.append_assoc]
      exact List.Perm.append_left v ih

theorem classifyStep_ok {selfOpt : Option PeerStatus} {userDir : List (Int × UserProfile)}
    {acc : ClassifyAcc} {peer : PeerStatus} {acc' : ClassifyAcc}
    (h : classifyStep selfOpt userDir acc peer = .ok acc') :
    (peer.ExitNodeOption = true ∧
      acc' = ⟨i64add acc.RxBytes peer.RxBytes, i64add acc.TxBytes peer.TxBytes,
              acc.ExitNodes ++ [peer], acc.MyNodes, acc.TaggedNodes, acc.OwnedNodes⟩) ∨
    (∃ self, selfOpt = some self ∧ peer.ExitNodeOption = false ∧
      peer.UserID = self.UserID ∧
      acc' = ⟨i64add acc.RxBytes peer.RxBytes, i64add acc.TxBytes peer.TxBytes,
              acc.ExitNodes, acc.MyNodes ++ [peer], acc.TaggedNodes, acc.OwnedNodes⟩) ∨
    (∃ self, selfOpt = some self ∧ peer.ExitNodeOption = false ∧
      peer.UserID ≠ self.UserID ∧ peer.IsTagged = true ∧
      acc' = ⟨i64add acc.RxBytes peer.RxBytes, i64add acc.TxBytes peer.TxBytes,
              acc.ExitNodes, acc.MyNodes, acc.TaggedNodes ++ [peer], acc.OwnedNodes⟩) ∨
    (∃ self, selfOpt = some self ∧ peer.ExitNodeOption = false ∧
      peer.UserID ≠ self.UserID ∧ peer.IsTagged = false ∧
      acc' = ⟨i64add acc.RxBytes peer.RxBytes, i64add acc.TxBytes peer.TxBytes,
              acc.ExitNodes, acc.MyNodes, acc.TaggedNodes,
              appendOwned acc.OwnedNodes (accountNameFor userDir peer.UserID) peer⟩) := by
  unfold classifyStep at h
  by_cases hexit : peer.ExitNodeOption = true
  · rw [if_pos hexit] at h
    injection h with h
    exact Or.inl ⟨hexit, h.symm⟩
  · rw [if_neg hexit] at h
    have hexit' : peer.ExitNodeOption = false := by
      cases hpe : peer.ExitNodeOption
      · rfl
      · exact absurd hpe hexit
    cases hself : selfOpt with
    | none => rw [hself] at h; cases h
    | some self =>
      rw [hself] at h
      dsimp only at h
      by_cases hmine : peer.UserID = self.UserID
      · rw [if_pos hmine] at h
        injection h with h
        exact Or.inr (Or.inl ⟨self, rfl, hexit', hmine, h.symm⟩)
      · rw [if_neg hmine] at h
        by_cases htag : peer.IsTagged = true
        · rw [if_pos htag] at h
          injection h with h
          exact Or.inr (Or.inr (Or.inl ⟨self, rfl, hexit', hmine, htag, h.symm⟩))
        · rw [if_neg htag] at h
          have htag' : peer.IsTagged = false := by
            cases hpt : peer.IsTagged
            · rfl
            · exact absurd hpt htag
          injection h with h
          exact Or.inr (Or.inr (Or.inr ⟨self, rfl, hexit', hmine, htag', h.symm⟩))

theorem classifyPeers_ok_cons {selfOpt : Option PeerStatus}
    {userDir : List (Int × UserProfile)} {acc : ClassifyAcc} {p : PeerStatus}
    {l : List PeerStatus} {acc' : ClassifyAcc}
    (h : classifyPeers selfOpt userDir acc (p :: l) = .ok acc') :
    ∃ acc1, classifyStep selfOpt userDir acc p = .ok acc1 ∧
      classifyPeers selfOpt userDir acc1 l = .ok acc' := by
  unfold classifyPeers at h
  cases hs : classifyStep selfOpt userDir acc p with
  | error e => rw [hs] at h; cases h
  | ok acc1 => rw [hs] at h; exact ⟨acc1, rfl, h⟩

theorem classifyPeers_ok_nil {selfOpt : Option PeerStatus}
    {userDir : List (Int × UserProfile)} {acc acc' : ClassifyAcc}
    (h : classifyPeers selfOpt userDir acc [] = .ok acc') : acc' = acc := by
  unfold classifyPeers at h
  injection h with h
  exact h.symm

theorem bag_classifyStep {selfOpt : Option PeerStatus} {userDir : List (Int × UserProfile)}
    {acc : ClassifyAcc} {peer : PeerStatus} {acc' : ClassifyAcc}
    (h : classifyStep selfOpt userDir acc peer = .ok acc') :
    List.Perm (bag acc') (bag acc ++ [peer]) := by
  rcases classifyStep_ok h with ⟨_, rfl⟩ | ⟨self, _, _, _, rfl⟩ | ⟨self, _, _, _, _, rfl⟩ |
    ⟨self, _, _, _, _, rfl⟩
  · rw [List.perm_iff_count]
    intro a
    simp only [bag, List.count_append]
    omega
  · rw [List.perm_iff_count]
    intro a
    simp only [bag, List.count_append]
    omega
  · rw [List.perm_iff_count]
    intro a
    simp only [bag, List.count_append]
    omega
  · rw [List.perm_iff_count]
    intro a
    have hc := List.Perm.count_eq
      (joinOwned_appendOwned acc.OwnedNodes (accountNameFor userDir peer.UserID) peer) a
    simp only [List.count_append] at hc
    simp only [bag, List.count_append]
    omega

theorem bag_classifyPeers {selfOpt : Option PeerStatus}
    {userDir : List (Int × UserProfile)} :
    ∀ {l : List PeerStatus} {acc acc' : ClassifyAcc},
      classifyPeers selfOpt userDir acc l = .ok acc' →
      List.Perm (bag acc') (bag acc ++ l)
  | [], acc, acc', h => by
    rw [classifyPeers_ok_nil h, List.append_nil]
  | p :: l, acc, acc', h => by
    rcases classifyPeers_ok_cons h with ⟨acc1, hstep, hrest⟩
    have h1 := bag_classifyStep hstep
    have h2 := bag_classifyPeers hrest
    refine h2.trans ?_
    have h3 := List.Perm.append_right l h1
    rw [List.append_assoc] at h3
    exact h3

theorem traffic_classifyPeers {selfOpt : Option PeerStatus}
    {userDir : List (Int × UserProfile)} :
    ∀ {l : List PeerStatus} {acc acc' : ClassifyAcc},
      classifyPeers selfOpt userDir acc l = .ok acc' →
      acc'.RxBytes = List.foldl i64add acc.RxBytes (l.map PeerStatus.RxBytes) ∧
      acc'.TxBytes = List.foldl i64add acc.TxBytes (l.map PeerStatus.TxBytes)
  | [], acc, acc', h => by
    rw [classifyPeers_ok_nil h]
    exact ⟨rfl, rfl⟩
  | p :: l, acc, acc', h => by
    rcases classifyPeers_ok_cons h with ⟨acc1, hstep, hrest⟩
    have hrx : acc1.RxBytes = i64add acc.RxBytes p.RxBytes ∧
        acc1.TxBytes = i64add acc.TxBytes p.TxBytes := by
      rcases classifyStep_ok hstep with ⟨_, rfl⟩ | ⟨self, _, _, _, rfl⟩ |
        ⟨self, _, _, _, _, rfl⟩ | ⟨self, _, _, _, _, rfl⟩ <;> exact ⟨rfl, rfl⟩
    have ih := traffic_classifyPeers hrest
    rw [List.map_cons, List.foldl_cons, List.map_cons, List.foldl_cons,
      ← hrx.1, ← hrx.2]
    exact ih

theorem wrap64_add_left (x y : Int) : wrap64 (wrap64 x + y) = wrap64 (x + y) := by
  unfold wrap64
  omega

theorem wrap64_zero : wrap64 0 = 0 := by decide

theorem foldl_i64add (l : List Int) : ∀ a : Int,
    List.foldl i64add (wrap64 a) l = wrap64 (a + l.sum) := by
  induction l with
  | nil => intro a; simp
  | cons x xs ih =>
    intro a
    rw [List.foldl_cons]
    show List.foldl i64add (wrap64 (wrap64 a + x)) xs = _
    rw [wrap64_add_left, ih (a + x), List.sum_cons]
    ring_nf

/-- C4: For every input status, the `RxBytes` and `TxBytes` fields of the
`State` returned by `GetState` equal the (64-bit) sum of the per-peer
`RxBytes` and `TxBytes` counters over the full input peer list — including,
via `wrap64` of the exact sum, independence of the iteration order and of
which classification bucket each peer lands in. -/
theorem C4_traffic_conservation (status : Status) (prefs : Option Prefs)
    (lock : NetworkLockStatus) (st : State)
    (h : GetState status prefs lock = .ok (st, none)) :
    st.RxBytes = List.foldl i64add 0 (status.Peer.map PeerStatus.RxBytes) ∧
    st.TxBytes = List.foldl i64add 0 (status.Peer.map PeerStatus.TxBytes) ∧
    st.RxBytes = wrap64 (status.Peer.map PeerStatus.RxBytes).sum ∧
    st.TxBytes = wrap64 (status.Peer.map PeerStatus.TxBytes).sum := by
  rcases GetState_ok h with ⟨bs, acc, _, hc, hst⟩
  have ht := traffic_classifyPeers hc
  have hrx : st.RxBytes = acc.RxBytes := by rw [hst]; rfl
  have htx : st.TxBytes = acc.TxBytes := by rw [hst]; rfl
  have h1 : st.RxBytes = List.foldl i64add 0 (status.Peer.map PeerStatus.RxBytes) := by
    rw [hrx, ht.1]; rfl
  have h2 : st.TxBytes = List.foldl i64add 0 (status.Peer.map PeerStatus.TxBytes) := by
    rw [htx, ht.2]; rfl
  refine ⟨h1, h2, ?_, ?_⟩
  · rw [h1, ← wrap64_zero, foldl_i64add, zero_add]
  · rw [h2, ← wrap64_zero, foldl_i64add, zero_add]

/-- C4 witness: the theorem applied at the concrete status `statusEx`. -/
theorem C4_traffic_conservation_witness :
    GetState statusEx none lockOn = .ok (stEx, none) ∧
    (stEx.RxBytes = List.foldl i64add 0 (statusEx.Peer.map PeerStatus.RxBytes) ∧
     stEx.TxBytes = List.foldl i64add 0 (statusEx.Peer.map PeerStatus.TxBytes) ∧
     stEx.RxBytes = wrap64 (statusEx.Peer.map PeerStatus.RxBytes).sum ∧
     stEx.TxBytes = wrap64 (statusEx.Peer.map PeerStatus.TxBytes).sum) :=
  ⟨by decide, C4_traffic_conservation statusEx none lockOn stEx (by decide)⟩

/-- C1: For every input status, the peer classification in `GetState` is a
strict partition: the concatenation of `ExitNodes`, `MyNodes`, `TaggedNodes`
and all `OwnedNodes` buckets is a permutation of the input peer list (so no
peer is dropped or duplicated), and the bucket sizes sum to the number of
input peers. -/
theorem C1_partition (status : Status) (prefs : Option Prefs)
    (lock : NetworkLockStatus) (st : State)
    (h : GetState status prefs lock = .ok (st, none)) :
    List.Perm (st.ExitNodes ++ st.MyNodes ++ st.TaggedNodes ++ joinOwned st.OwnedNodes)
      status.Peer ∧
    st.ExitNodes.length + st.MyNodes.length + st.TaggedNodes.length +
      ((st.OwnedNodes.map (fun kv => kv.2.length)).sum) = status.Peer.length := by
  rcases GetState_ok h with ⟨bs, acc, _, hc, hst⟩
  have hbag := bag_classifyPeers hc
  have hbag0 : List.Perm (bag acc) status.Peer := by
    have : bag initAcc ++ status.Peer = status.Peer := rfl
    rw [this] at hbag
    exact hbag
  have hE : st.ExitNodes = sortNodes acc.ExitNodes := by rw [hst]; rfl
  have hM : st.MyNodes = sortNodes acc.MyNodes := by rw [hst]; rfl
  have hT : st.TaggedNodes = sortNodes acc.TaggedNodes := by rw [hst]; rfl
  have hO : st.OwnedNodes = sortOwned acc.OwnedNodes := by rw [hst]; rfl
  have hjoin : List.Perm (joinOwned (sortOwned acc.OwnedNodes)) (joinOwned acc.OwnedNodes) := by
    clear hbag hbag0 hc hst hE hM hT hO
    induction acc.OwnedNodes with
    | nil => exact List.Perm.refl _
    | cons kv rest ih =>
      obtain ⟨k, v⟩ := kv
      show List.Perm (sortNodes v ++ joinOwned (sortOwned rest)) (v ++ joinOwned rest)
      exact List.Perm.append (List.perm_insertionSort peerLe v) ih
  have hperm : List.Perm
      (st.ExitNodes ++ st.MyNodes ++ st.TaggedNodes ++ joinOwned st.OwnedNodes)
      (bag acc) := by
    rw [hE, hM, hT, hO, bag]
    exact List.Perm.append
      (List.Perm.append
        (List.Perm.append (List.perm_insertionSort peerLe acc.ExitNodes)
          (List.perm_insertionSort peerLe acc.MyNodes))
        (List.perm_insertionSort peerLe acc.TaggedNodes))
      hjoin
  have hfull := hperm.trans hbag0
  refine ⟨hfull, ?_⟩
  have hlen := hfull.length_eq
  rw [List.length_append, List.length_append, List.length_append] at hlen
  have hjl : (joinOwned st.OwnedNodes).length =
      (st.OwnedNodes.map (fun kv => kv.2.length)).sum := by
    rw [joinOwned, List.length_join, List.map_map]
    rfl
  rw [hjl] at hlen
  omega

theorem find?_first {α : Type} (pr : α → Bool) : ∀ (l₁ : List α) (p : α) (l₂ : List α),
    pr p = true → (∀ q ∈ l₁, pr q = false) → (l₁ ++ p :: l₂).find? pr = some p
  | [], p, l₂, hp, _ => by simp [List.find?_cons, hp]
  | q :: l₁, p, l₂, hp, hq => by
    have hq0 : pr q = false := hq q (List.mem_cons_self q l₁)
    rw [List.cons_append, List.find?_cons, hq0]
    exact find?_first pr l₁ p l₂ hp (fun r hr => hq r (List.mem_cons_of_mem _ hr))

/-- C6: For every lock-status input and resolved backend state, `GetState`
sets `LockKey` iff the lock is enabled, the node key is present and the
public key is non-zero, and sets `IsLockedOut` iff `LockKey` was set, the
node key is unsigned, and the backend state is `Running`; lock disabled
forces `LockKey` absent and `IsLockedOut` false, and backend state `Stopped`
forces `IsLockedOut` false. -/
theorem C6_lock_evaluation (status : Status) (prefs : Option Prefs)
    (lock : NetworkLockStatus) (st : State)
    (h : GetState status prefs lock = .ok (st, none)) :
    (st.LockKey = some lock.PublicKey ↔
      (lock.Enabled = true ∧ lock.NodeKey ≠ none ∧ lock.PublicKey.IsZero = false)) ∧
    (st.LockKey ≠ none → st.LockKey = some lock.PublicKey) ∧
    (st.IsLockedOut = true ↔
      (st.LockKey ≠ none ∧ lock.NodeKeySigned = false ∧
        st.BackendState = IPNState.Running)) ∧
    (lock.Enabled = false → st.LockKey = none ∧ st.IsLockedOut = false) ∧
    (st.BackendState = IPNState.Stopped → st.IsLockedOut = false) := by
  rcases GetState_ok h with ⟨bs, acc, _, _, hst⟩
  have hLK : st.LockKey =
      (if lock.Enabled && lock.NodeKey.isSome && !(NLPublic.IsZero lock.PublicKey) then
        some lock.PublicKey else none) := by
    rw [hst]; rfl
  have hLO : st.IsLockedOut =
      (if lock.Enabled && lock.NodeKey.isSome && !(NLPublic.IsZero lock.PublicKey) then
        !lock.NodeKeySigned && decide (bs = IPNState.Running) else false) := by
    rw [hst]; rfl
  have hBS : st.BackendState = bs := by rw [hst]; rfl
  by_cases hc : (lock.Enabled && lock.NodeKey.isSome && !(NLPublic.IsZero lock.PublicKey)) = true
  · rw [if_pos hc] at hLK
    rw [if_pos hc] at hLO
    have hc' : lock.Enabled = true ∧ lock.NodeKey ≠ none ∧ lock.PublicKey.IsZero = false := by
      simp only [Bool.and_eq_true, Bool.not_eq_true'] at hc
      exact ⟨hc.1.1, Option.isSome_iff_ne_none.mp hc.1.2, hc.2⟩
    refine ⟨⟨fun _ => hc', fun _ => hLK⟩, fun _ => hLK, ?_, ?_, ?_⟩
    · rw [hLO, hLK, hBS]
      constructor
      · intro hh
        simp only [Bool.and_eq_true, Bool.not_eq_true', decide_eq_true_eq] at hh
        exact ⟨by simp, hh.1, hh.2⟩
      · intro ⟨_, hsig, hrun⟩
        simp only [Bool.and_eq_true, Bool.not_eq_true', decide_eq_true_eq]
        exact ⟨hsig, hrun⟩
    · intro hdis
      rw [hdis] at hc'
      exact absurd hc'.1 (by simp)
    · intro hstop
      rw [hBS] at hstop
      rw [hLO, hstop]
      simp
  · rw [if_neg hc] at hLK
    rw [if_neg hc] at hLO
    refine ⟨?_, fun hne => absurd hLK hne, ?_, fun _ => ⟨hLK, hLO⟩, fun _ => hLO⟩
    · constructor
      · intro heq
        rw [hLK] at heq
        exact absurd heq (by simp)
      · intro ⟨hEn, hNK, hZ⟩
        exact absurd (by simp [hEn, Option.isSome_iff_ne_none.mpr hNK, hZ]) hc
    · constructor
      · intro hh
        rw [hLO] at hh
        exact absurd hh (by simp)
      · intro ⟨hne, _, _⟩
        exact absurd hLK hne

/-- C6 witness: the theorem applied at `statusEx` with lock enabled, an
unsigned node key and backend state `Running`. -/
theorem C6_lock_evaluation_witness :
    GetState statusEx none lockOn = .ok (stEx, none) ∧
    ((stEx.LockKey = some lockOn.PublicKey ↔
      (lockOn.Enabled = true ∧ lockOn.NodeKey ≠ none ∧ lockOn.PublicKey.IsZero = false)) ∧
     (stEx.LockKey ≠ none → stEx.LockKey = some lockOn.PublicKey) ∧
     (stEx.IsLockedOut = true ↔
      (stEx.LockKey ≠ none ∧ lockOn.NodeKeySigned = false ∧
        stEx.BackendState = IPNState.Running)) ∧
     (lockOn.Enabled = false → stEx.LockKey = none ∧ stEx.IsLockedOut = false) ∧
     (stEx.BackendState = IPNState.Stopped → stEx.IsLockedOut = false)) :=
  ⟨by decide, C6_lock_evaluation statusEx none lockOn stEx (by decide)⟩

/-- C7: For every input status: if no current exit node id is set, both
`CurrentExitNode` and `CurrentExitNodeName` stay absent/empty; if an id is
set, `CurrentExitNode` is that id unconditionally and `CurrentExitNodeName`
is the display name of the first peer of the sorted `ExitNodes` sequence
whose id matches, or stays empty when no peer matches (no error). -/
theorem C7_exit_node_resolution (status : Status) (prefs : Option Prefs)
    (lock : NetworkLockStatus) (st : State)
    (h : GetState status prefs lock = .ok (st, none)) :
    (status.ExitNodeStatus = none →
      st.CurrentExitNode = none ∧ st.CurrentExitNodeName = "") ∧
    (∀ es, status.ExitNodeStatus = some es →
      st.CurrentExitNode = some es.ID ∧
      ((∀ p ∈ st.ExitNodes, p.ID ≠ es.ID) → st.CurrentExitNodeName = "") ∧
      (∀ l₁ p l₂, st.ExitNodes = l₁ ++ p :: l₂ → p.ID = es.ID →
        (∀ q ∈ l₁, q.ID ≠ es.ID) → st.CurrentExitNodeName = PeerName p)) := by
  rcases GetState_ok h with ⟨bs, acc, _, _, hst⟩
  have hCE : st.CurrentExitNode =
      (match status.ExitNodeStatus with
       | some es => some es.ID
       | none => none) := by rw [hst]; rfl
  have hCN : st.CurrentExitNodeName =
      (match status.ExitNodeStatus with
       | some es =>
         match st.ExitNodes.find? (fun p => decide (p.ID = es.ID)) with
         | some p => PeerName p
         | none => ""
       | none => "") := by
    rw [hst]; rfl
  constructor
  · intro hes
    rw [hes] at hCE hCN
    exact ⟨hCE, hCN⟩
  · intro es hes
    simp only [hes] at hCE hCN
    refine ⟨hCE, ?_, ?_⟩
    · intro hnone
      have : st.ExitNodes.find? (fun p => decide (p.ID = es.ID)) = none := by
        rw [List.find?_eq_none]
        intro p hp
        simp only [decide_eq_true_eq]
        exact hnone p hp
      rw [this] at hCN
      exact hCN
    · intro l₁ p l₂ hsplit hpid hq
      have : st.ExitNodes.find? (fun q => decide (q.ID = es.ID)) = some p := by
        rw [hsplit]
        exact find?_first _ l₁ p l₂ (by simp [hpid])
          (fun q hql => by simp [hq q hql])
      rw [this] at hCN
      exact hCN

/-- C7 witness: the theorem applied at `statusEx`, whose selected exit node
id `"e1"` matches the single exit-capable peer. -/
theorem C7_exit_node_resolution_witness :
    GetState statusEx none lockOn = .ok (stEx, none) ∧
    ((statusEx.ExitNodeStatus = none →
      stEx.CurrentExitNode = none ∧ stEx.CurrentExitNodeName = "") ∧
     (∀ es, statusEx.ExitNodeStatus = some es →
      stEx.CurrentExitNode = some es.ID ∧
      ((∀ p ∈ stEx.ExitNodes, p.ID ≠ es.ID) → stEx.CurrentExitNodeName = "") ∧
      (∀ l₁ p l₂, stEx.ExitNodes = l₁ ++ p :: l₂ → p.ID = es.ID →
        (∀ q ∈ l₁, q.ID ≠ es.ID) → stEx.CurrentExitNodeName = PeerName p))) :=
  ⟨by decide, C7_exit_node_resolution statusEx none lockOn stEx (by decide)⟩

/-- C10: For every input status in which the self peer is present, `GetState`
sets `User` to a pointer to the profile found in the user directory, which is
the zero-valued profile when the owner id has no entry (never `nil`); `User`
is left `nil` exactly when the self peer is absent. -/
theorem C10_user_resolution (status : Status) (prefs : Option Prefs)
    (lock : NetworkLockStatus) (st : State)
    (h : GetState status prefs lock = .ok (st, none)) :
    (∀ self, status.Self = some self →
      st.User = some ((mapLookup status.User self.UserID).getD zeroUserProfile) ∧
      (mapLookup status.User self.UserID = none → st.User = some zeroUserProfile)) ∧
    (status.Self = none → st.User = none) ∧
    (st.User = none → status.Self = none) := by
  rcases GetState_ok h with ⟨bs, acc, _, _, hst⟩
  have hU : st.User =
      (match status.Self with
       | some self => some ((mapLookup status.User self.UserID).getD zeroUserProfile)
       | none => none) := by rw [hst]; rfl
  refine ⟨?_, ?_, ?_⟩
  · intro self hself
    simp only [hself] at hU
    exact ⟨hU, fun hmiss => by rw [hU, hmiss]; rfl⟩
  · intro hself
    rw [hself] at hU
    exact hU
  · intro hnone
    cases hself : status.Self with
    | none => rfl
    | some self =>
      rw [hself] at hU
      rw [hU] at hnone
      exact absurd hnone (by simp)

/-- C10 witness: the theorem applied at `statusNoOwner`, whose self peer's
owner id 999 is missing from the user directory. -/
theorem C10_user_resolution_witness :
    GetState statusNoOwner none lockOff = .ok (stNoOwner, none) ∧
    mapLookup statusNoOwner.User peerNoOwner.UserID = none ∧
    stNoOwner.User = some zeroUserProfile :=
  ⟨by decide, by decide,
    ((C10_user_resolution statusNoOwner none lockOff stNoOwner (by decide)).1
      peerNoOwner (by decide)).2 (by decide)⟩

theorem appendOwned_keys (m : List (String × List PeerStatus)) (k : String) (p : PeerStatus) :
    (appendOwned m k p).map Prod.fst =
      (match mapLookup m k with
       | some _ => m.map Prod.fst
       | none => m.map Prod.fst ++ [k]) := by
  induction m with
  | nil => rfl
  | cons kv rest ih =>
    obtain ⟨k', v⟩ := kv
    unfold appendOwned mapLookup
    by_cases h : k = k'
    · rw [if_pos h, if_pos h]
      rfl
    · rw [if_neg h, if_neg h]
      simp only [List.map_cons]
      rw [ih]
      cases mapLookup rest k <;> rfl

theorem mapLookup_eq_none_iff {β : Type} (m : List (String × β)) (k : String) :
    mapLookup m k = none ↔ k ∉ m.map Prod.fst := by
  induction m with
  | nil => simp [mapLookup]
  | cons kv rest ih =>
    obtain ⟨k', v⟩ := kv
    unfold mapLookup
    by_cases h : k = k'
    · simp [h]
    · simp [h, ih]

theorem appendOwned_keys_nodup {m : List (String × List PeerStatus)} {k : String}
    {p : PeerStatus} (h : (m.map Prod.fst).Nodup) :
    ((appendOwned m k p).map Prod.fst).Nodup := by
  rw [appendOwned_keys]
  cases hlk : mapLookup m k with
  | some v => exact h
  | none =>
    have hk : k ∉ m.map Prod.fst := (mapLookup_eq_none_iff m k).mp hlk
    rw [List.nodup_append]
    exact ⟨h, List.nodup_singleton k, by simpa [List.disjoint_singleton] using hk⟩

theorem classify_keys_nodup {selfOpt : Option PeerStatus}
    {userDir : List (Int × UserProfile)} :
    ∀ {l : List PeerStatus} {acc acc' : ClassifyAcc},
      classifyPeers selfOpt userDir acc l = .ok acc' →
      (acc.OwnedNodes.map Prod.fst).Nodup → (acc'.OwnedNodes.map Prod.fst).Nodup
  | [], acc, acc', h, hn => by rw [classifyPeers_ok_nil h]; exact hn
  | q :: l, acc, acc', h, hn => by
    rcases classifyPeers_ok_cons h with ⟨acc1, hstep, hrest⟩
    have hn1 : (acc1.OwnedNodes.map Prod.fst).Nodup := by
      rcases classifyStep_ok hstep with ⟨_, rfl⟩ | ⟨self, _, _, _, rfl⟩ |
        ⟨self, _, _, _, _, rfl⟩ | ⟨self, _, _, _, _, rfl⟩
      · exact hn
      · exact hn
      · exact hn
      · exact appendOwned_keys_nodup hn
    exact classify_keys_nodup hrest hn1

theorem bucketOf_appendOwned_self (m : List (String × List PeerStatus)) (k : String)
    (p : PeerStatus) : p ∈ bucketOf (appendOwned m k p) k := by
  induction m with
  | nil => simp [appendOwned, bucketOf, mapLookup]
  | cons kv rest ih =>
    obtain ⟨k₀, v⟩ := kv
    unfold appendOwned
    by_cases h : k = k₀
    · rw [if_pos h]
      unfold bucketOf mapLookup
      rw [if_pos h]
      simp
    · rw [if_neg h]
      unfold bucketOf mapLookup
      rw [if_neg h]
      exact ih

theorem bucketOf_appendOwned_mono {m : List (String × List PeerStatus)} {k : String}
    {p : PeerStatus} (k' : String) (q : PeerStatus) (h : p ∈ bucketOf m k) :
    p ∈ bucketOf (appendOwned m k' q) k := by
  induction m with
  | nil => simp [bucketOf, mapLookup] at h
  | cons kv rest ih =>
    obtain ⟨k₀, v⟩ := kv
    unfold appendOwned
    by_cases hk' : k' = k₀
    · rw [if_pos hk']
      unfold bucketOf mapLookup
      by_cases hk : k = k₀
      · rw [if_pos hk]
        have hv : p ∈ v := by
          unfold bucketOf mapLookup at h
          rw [if_pos hk] at h
          exact h
        simp [List.mem_append, hv]
      · rw [if_neg hk]
        unfold bucketOf mapLookup at h
        rw [if_neg hk] at h
        exact h
    · rw [if_neg hk']
      unfold bucketOf mapLookup
      by_cases hk : k = k₀
      · rw [if_pos hk]
        unfold bucketOf mapLookup at h
        rw [if_pos hk] at h
        exact h
      · rw [if_neg hk]
        unfold bucketOf mapLookup at h
        rw [if_neg hk] at h
        exact ih h

theorem classify_owned_mem {self : PeerStatus} {userDir : List (Int × UserProfile)} :
    ∀ {l : List PeerStatus} {acc acc' : ClassifyAcc},
      classifyPeers (some self) userDir acc l = .ok acc' →
      (∀ k p, p ∈ bucketOf acc.OwnedNodes k → p ∈ bucketOf acc'.OwnedNodes k) ∧
      (∀ p ∈ l, p.ExitNodeOption = false → p.UserID ≠ self.UserID → p.IsTagged = false →
        p ∈ bucketOf acc'.OwnedNodes (accountNameFor userDir p.UserID))
  | [], acc, acc', h => by
    rw [classifyPeers_ok_nil h]
    exact ⟨fun k p hp => hp, fun p hp => absurd hp (List.not_mem_nil p)⟩
  | q :: l, acc, acc', h => by
    rcases classifyPeers_ok_cons h with ⟨acc1, hstep, hrest⟩
    have ih := classify_owned_mem hrest
    have hmono1 : ∀ k p, p ∈ bucketOf acc.OwnedNodes k → p ∈ bucketOf acc1.OwnedNodes k := by
      rcases classifyStep_ok hstep with ⟨_, rfl⟩ | ⟨self', _, _, _, rfl⟩ |
        ⟨self', _, _, _, _, rfl⟩ | ⟨self', _, _, _, _, rfl⟩
      · exact fun k p hp => hp
      · exact fun k p hp => hp
      · exact fun k p hp => hp
      · exact fun k p hp => bucketOf_appendOwned_mono _ _ hp
    refine ⟨fun k p hp => ih.1 k p (hmono1 k p hp), ?_⟩
    intro p hp hexit huid htag
    rcases List.mem_cons.mp hp with rfl | hpl
    · rcases classifyStep_ok hstep with ⟨hc, rfl⟩ | ⟨self', hs, _, hc, rfl⟩ |
        ⟨self', hs, _, _, hc, rfl⟩ | ⟨self', hs, _, _, _, rfl⟩
      · exact absurd hc (by rw [hexit]; exact Bool.false_ne_true)
      · have : self' = self := by injection hs with hs; exact hs.symm
        rw [this] at hc
        exact absurd hc huid
      · exact absurd hc (by rw [htag]; exact Bool.false_ne_true)
      · exact ih.1 _ p (bucketOf_appendOwned_self _ _ _)
    · exact ih.2 p hpl hexit huid htag

theorem mapLookup_sortOwned (m : List (String × List PeerStatus)) (k : String) :
    mapLookup (sortOwned m) k = (mapLookup m k).map sortNodes := by
  induction m with
  | nil => rfl
  | cons kv rest ih =>
    obtain ⟨k₀, v⟩ := kv
    simp only [sortOwned, List.map_cons]
    unfold mapLookup
    by_cases h : k = k₀
    · rw [if_pos h, if_pos h]
      rfl
    · rw [if_neg h, if_neg h]
      simpa [sortOwned] using ih

theorem bucketOf_sortOwned (m : List (String × List PeerStatus)) (k : String) :
    bucketOf (sortOwned m) k = sortNodes (bucketOf m k) := by
  unfold bucketOf
  rw [mapLookup_sortOwned]
  cases mapLookup m k <;> rfl

theorem sortOwned_keys (m : List (String × List PeerStatus)) :
    (sortOwned m).map Prod.fst = m.map Prod.fst := by
  induction m with
  | nil => rfl
  | cons kv rest ih =>
    obtain ⟨k₀, v⟩ := kv
    simp only [sortOwned, List.map_cons] at ih ⊢
    rw [ih]

/-- C9: For every input status (with the self peer present, as required for
the run to reach rule 4), every peer reaching classification rule 4 is
bucketed in `OwnedNodes` under the owning user's display name, falling back
to the login name when the display name is empty and to the empty string when
the owner is not in the user directory (no peer is dropped); and
`OwnedNodeKeys` is the sorted, duplicate-free list of exactly the keys
present in the `OwnedNodes` map. -/
theorem C9_owned_nodes (status : Status) (prefs : Option Prefs)
    (lock : NetworkLockStatus) (st : State) (self : PeerStatus)
    (h : GetState status prefs lock = .ok (st, none)) (hself : status.Self = some self) :
    (∀ p ∈ status.Peer, p.ExitNodeOption = false → p.UserID ≠ self.UserID →
      p.IsTagged = false →
      p ∈ bucketOf st.OwnedNodes (accountNameFor status.User p.UserID)) ∧
    (∀ uid, (mapLookup status.User uid = none → accountNameFor status.User uid = "") ∧
      (∀ u, mapLookup status.User uid = some u →
        accountNameFor status.User uid =
          (if u.DisplayName = "" then u.LoginName else u.DisplayName))) ∧
    List.Sorted strLe st.OwnedNodeKeys ∧
    st.OwnedNodeKeys.Nodup ∧
    (∀ k, k ∈ st.OwnedNodeKeys ↔ mapLookup st.OwnedNodes k ≠ none) := by
  rcases GetState_ok h with ⟨bs, acc, _, hc, hst⟩
  rw [hself] at hc
  have hO : st.OwnedNodes = sortOwned acc.OwnedNodes := by rw [hst]; rfl
  have hK : st.OwnedNodeKeys = List.insertionSort strLe (acc.OwnedNodes.map Prod.fst) := by
    rw [hst]; rfl
  have hmem := classify_owned_mem hc
  refine ⟨?_, ?_, ?_, ?_, ?_⟩
  · intro p hp hexit huid htag
    have hin := hmem.2 p hp hexit huid htag
    rw [hO, bucketOf_sortOwned]
    exact ((List.perm_insertionSort peerLe _).mem_iff).mpr hin
  · intro uid
    constructor
    · intro hmiss
      unfold accountNameFor
      rw [hmiss]
    · intro u hu
      unfold accountNameFor
      rw [hu]
  · rw [hK]
    exact List.sorted_insertionSort strLe _
  · rw [hK]
    have hkn : ((acc.OwnedNodes.map Prod.fst)).Nodup :=
      classify_keys_nodup hc List.nodup_nil
    exact ((List.perm_insertionSort strLe _).symm).nodup hkn
  · intro k
    rw [hK, hO]
    constructor
    · intro hk
      have hk' : k ∈ acc.OwnedNodes.map Prod.fst :=
        ((List.perm_insertionSort strLe _).mem_iff).mp hk
      have hsome : mapLookup acc.OwnedNodes k ≠ none := by
        intro hnone
        exact absurd hk' ((mapLookup_eq_none_iff _ k).mp hnone)
      rw [mapLookup_sortOwned]
      cases hml : mapLookup acc.OwnedNodes k with
      | none => exact absurd hml hsome
      | some v => simp
    · intro hne
      have hsome : mapLookup acc.OwnedNodes k ≠ none := by
        intro hnone
        rw [mapLookup_sortOwned, hnone] at hne
        exact hne rfl
      have hk' : k ∈ acc.OwnedNodes.map Prod.fst := by
        by_contra habs
        exact hsome ((mapLookup_eq_none_iff _ k).mpr habs)
      exact ((List.perm_insertionSort strLe _).mem_iff).mpr hk'

/-- C9 witness: the theorem applied at `statusEx`; its peer `peerBobEx`
reaches rule 4 and is bucketed under the login-name fallback key. -/
theorem C9_owned_nodes_witness :
    GetState statusEx none lockOn = .ok (stEx, none) ∧
    statusEx.Self = some peerSelfEx ∧
    (∀ p ∈ statusEx.Peer, p.ExitNodeOption = false → p.UserID ≠ peerSelfEx.UserID →
      p.IsTagged = false →
      p ∈ bucketOf stEx.OwnedNodes (accountNameFor statusEx.User p.UserID)) :=
  ⟨by decide, by decide,
    (C9_owned_nodes statusEx none lockOn stEx peerSelfEx (by decide) (by decide)).1⟩

theorem mapLookup_appendOwned (m : List (String × List PeerStatus)) (k₀ : String)
    (q : PeerStatus) (k : String) :
    mapLookup (appendOwned m k₀ q) k =
      if k = k₀ then some ((mapLookup m k).getD [] ++ [q]) else mapLookup m k := by
  induction m with
  | nil => by_cases h : k = k₀ <;> simp [appendOwned, mapLookup, h]
  | cons kv rest ih =>
    obtain ⟨k₁, v⟩ := kv
    by_cases h₀ : k₀ = k₁
    · subst h₀
      by_cases h : k = k₀
      · subst h
        simp [appendOwned, mapLookup]
      · simp [appendOwned, mapLookup, h]
    · by_cases h : k = k₁
      · subst h
        have h' : ¬ (k = k₀) := fun hh => h₀ hh.symm
        simp [appendOwned, mapLookup, h₀, h']
      · simp [appendOwned, mapLookup, h₀, h, ih]

theorem bucketOf_appendOwned (m : List (String × List PeerStatus)) (k₀ : String)
    (q : PeerStatus) (k : String) :
    bucketOf (appendOwned m k₀ q) k =
      if k = k₀ then bucketOf m k ++ [q] else bucketOf m k := by
  unfold bucketOf
  rw [mapLookup_appendOwned]
  by_cases h : k = k₀ <;> simp [h]

theorem classify_exit_filter {selfOpt : Option PeerStatus}
    {userDir : List (Int × UserProfile)} :
    ∀ {l : List PeerStatus} {acc acc' : ClassifyAcc},
      classifyPeers selfOpt userDir acc l = .ok acc' →
      acc'.ExitNodes = acc.ExitNodes ++ l.filter (fun p => p.ExitNodeOption)
  | [], acc, acc', h => by rw [classifyPeers_ok_nil h]; simp
  | q :: l, acc, acc', h => by
    rcases classifyPeers_ok_cons h with ⟨acc1, hstep, hrest⟩
    have ih := classify_exit_filter hrest
    rcases classifyStep_ok hstep with ⟨hc, rfl⟩ | ⟨self', hs, hc, _, rfl⟩ |
      ⟨self', hs, hc, _, _, rfl⟩ | ⟨self', hs, hc, _, _, rfl⟩ <;>
      rw [ih] <;> simp [List.filter_cons, hc]

theorem classify_my_filter {self : PeerStatus} {userDir : List (Int × UserProfile)} :
    ∀ {l : List PeerStatus} {acc acc' : ClassifyAcc},
      classifyPeers (some self) userDir acc l = .ok acc' →
      acc'.MyNodes = acc.MyNodes ++
        l.filter (fun p => !p.ExitNodeOption && decide (p.UserID = self.UserID))
  | [], acc, acc', h => by rw [classifyPeers_ok_nil h]; simp
  | q :: l, acc, acc', h => by
    rcases classifyPeers_ok_cons h with ⟨acc1, hstep, hrest⟩
    have ih := classify_my_filter hrest
    rcases classifyStep_ok hstep with ⟨hc, rfl⟩ | ⟨self', hs, hexit, huid, rfl⟩ |
      ⟨self', hs, hexit, huid, htag, rfl⟩ | ⟨self', hs, hexit, huid, htag, rfl⟩
    · rw [ih]; simp [List.filter_cons, hc]
    · injection hs with hs
      subst hs
      rw [ih]; simp [List.filter_cons, hexit, huid]
    · injection hs with hs
      subst hs
      rw [ih]; simp [List.filter_cons, hexit, huid]
    · injection hs with hs
      subst hs
      rw [ih]; simp [List.filter_cons, hexit, huid]

theorem classify_tagged_filter {self : PeerStatus} {userDir : List (Int × UserProfile)} :
    ∀ {l : List PeerStatus} {acc acc' : ClassifyAcc},
      classifyPeers (some self) userDir acc l = .ok acc' →
      acc'.TaggedNodes = acc.TaggedNodes ++
        l.filter (fun p => !p.ExitNodeOption && !decide (p.UserID = self.UserID) &&
          p.IsTagged)
  | [], acc, acc', h => by rw [classifyPeers_ok_nil h]; simp
  | q :: l, acc, acc', h => by
    rcases classifyPeers_ok_cons h with ⟨acc1, hstep, hrest⟩
    have ih := classify_tagged_filter hrest
    rcases classifyStep_ok hstep with ⟨hc, rfl⟩ | ⟨self', hs, hexit, huid, rfl⟩ |
      ⟨self', hs, hexit, huid, htag, rfl⟩ | ⟨self', hs, hexit, huid, htag, rfl⟩
    · rw [ih]; simp [List.filter_cons, hc]
    · injection hs with hs
      subst hs
      rw [ih]; simp [List.filter_cons, hexit, huid]
    · injection hs with hs
      subst hs
      rw [ih]; simp [List.filter_cons, hexit, huid, htag]
    · injection hs with hs
      subst hs
      rw [ih]; simp [List.filter_cons, hexit, huid, htag]

theorem classify_bucket_filter {self : PeerStatus} {userDir : List (Int × UserProfile)} :
    ∀ {l : List PeerStatus} {acc acc' : ClassifyAcc},
      classifyPeers (some self) userDir acc l = .ok acc' →
      ∀ k, bucketOf acc'.OwnedNodes k = bucketOf acc.OwnedNodes k ++
        l.filter (fun p => !p.ExitNodeOption && !decide (p.UserID = self.UserID) &&
          !p.IsTagged && decide (accountNameFor userDir p.UserID = k))
  | [], acc, acc', h => by rw [classifyPeers_ok_nil h]; simp
  | q :: l, acc, acc', h => by
    rcases classifyPeers_ok_cons h with ⟨acc1, hstep, hrest⟩
    have ih := classify_bucket_filter hrest
    intro k
    rcases classifyStep_ok hstep with ⟨hc, rfl⟩ | ⟨self', hs, hexit, huid, rfl⟩ |
      ⟨self', hs, hexit, huid, htag, rfl⟩ | ⟨self', hs, hexit, huid, htag, rfl⟩
    · rw [ih k]; simp [List.filter_cons, hc]
    · injection hs with hs
      subst hs
      rw [ih k]; simp [List.filter_cons, hexit, huid]
    · injection hs with hs
      subst hs
      rw [ih k]; simp [List.filter_cons, hexit, huid, htag]
    · injection hs with hs
      subst hs
      rw [ih k]
      show bucketOf (appendOwned acc.OwnedNodes (accountNameFor userDir q.UserID) q) k ++ _ = _
      rw [bucketOf_appendOwned]
      by_cases hk : k = accountNameFor userDir q.UserID
      · rw [if_pos hk]
        have hkk : accountNameFor userDir q.UserID = k := hk.symm
        simp [List.filter_cons, hexit, huid, htag, hkk]
      · rw [if_neg hk]
        have hkk : ¬ (accountNameFor userDir q.UserID = k) := fun hh => hk hh.symm
        simp [List.filter_cons, hexit, huid, htag, hkk]

theorem classify_none_self {userDir : List (Int × UserProfile)} :
    ∀ {l : List PeerStatus} {acc acc' : ClassifyAcc},
      classifyPeers none userDir acc l = .ok acc' →
      acc'.MyNodes = acc.MyNodes ∧ acc'.TaggedNodes = acc.TaggedNodes ∧
      acc'.OwnedNodes = acc.OwnedNodes
  | [], acc, acc', h => by rw [classifyPeers_ok_nil h]; exact ⟨rfl, rfl, rfl⟩
  | q :: l, acc, acc', h => by
    rcases classifyPeers_ok_cons h with ⟨acc1, hstep, hrest⟩
    have ih := classify_none_self hrest
    rcases classifyStep_ok hstep with ⟨hc, rfl⟩ | ⟨self', hs, _, _, rfl⟩ |
      ⟨self', hs, _, _, _, rfl⟩ | ⟨self', hs, _, _, _, rfl⟩
    · exact ih
    · exact Option.noConfusion hs
    · exact Option.noConfusion hs
    · exact Option.noConfusion hs

theorem classify_buckets_ne {selfOpt : Option PeerStatus}
    {userDir : List (Int × UserProfile)} :
    ∀ {l : List PeerStatus} {acc acc' : ClassifyAcc},
      classifyPeers selfOpt userDir acc l = .ok acc' →
      (∀ k v, mapLookup acc.OwnedNodes k = some v → v ≠ []) →
      ∀ k v, mapLookup acc'.OwnedNodes k = some v → v ≠ []
  | [], acc, acc', h, hne => by rw [classifyPeers_ok_nil h]; exact hne
  | q :: l, acc, acc', h, hne => by
    rcases classifyPeers_ok_cons h with ⟨acc1, hstep, hrest⟩
    have hne1 : ∀ k v, mapLookup acc1.OwnedNodes k = some v → v ≠ [] := by
      rcases classifyStep_ok hstep with ⟨hc, rfl⟩ | ⟨self', hs, _, _, rfl⟩ |
        ⟨self', hs, _, _, _, rfl⟩ | ⟨self', hs, _, _, _, rfl⟩
      · exact hne
      · exact hne
      · exact hne
      · intro k v hv
        rw [mapLookup_appendOwned] at hv
        by_cases hk : k = accountNameFor userDir q.UserID
        · rw [if_pos hk] at hv
          injection hv with hv
          rw [← hv]
          simp
        · rw [if_neg hk] at hv
          exact hne k v hv
    exact classify_buckets_ne hrest hne1

theorem classify_lookup_eq_bucket {selfOpt : Option PeerStatus}
    {userDir : List (Int × UserProfile)} {l : List PeerStatus} {acc' : ClassifyAcc}
    (hc : classifyPeers selfOpt userDir initAcc l = .ok acc') (k : String) :
    mapLookup acc'.OwnedNodes k =
      if bucketOf acc'.OwnedNodes k = [] then none
      else some (bucketOf acc'.OwnedNodes k) := by
  have hne := classify_buckets_ne hc (fun k v hv => Option.noConfusion hv)
  cases hml : mapLookup acc'.OwnedNodes k with
  | none =>
    have hb : bucketOf acc'.OwnedNodes k = [] := by unfold bucketOf; rw [hml]; rfl
    rw [if_pos hb]
  | some v =>
    have hb : bucketOf acc'.OwnedNodes k = v := by unfold bucketOf; rw [hml]; rfl
    rw [hb, if_neg (hne k v hml)]

theorem sortNodes_eq_of_perm {l₁ l₂ : List PeerStatus} (hp : List.Perm l₁ l₂)
    (hinj : ∀ a b, a ∈ l₁ → b ∈ l₂ → PeerName a = PeerName b → a = b) :
    sortNodes l₁ = sortNodes l₂ := by
  apply List.Perm.eq_of_sorted
  · intro a b ha hb hab hba
    have ha' : a ∈ l₁ := ((List.perm_insertionSort peerLe l₁).mem_iff).mp ha
    have hb' : b ∈ l₂ := ((List.perm_insertionSort peerLe l₂).mem_iff).mp hb
    exact hinj a b ha' hb' (antisymm_of strLe hab hba)
  · exact List.sorted_insertionSort peerLe l₁
  · exact List.sorted_insertionSort peerLe l₂
  · exact ((List.perm_insertionSort peerLe l₁).trans hp).trans
      (List.perm_insertionSort peerLe l₂).symm

theorem sortKeys_eq_of_mem_iff {l₁ l₂ : List String} (h₁ : l₁.Nodup) (h₂ : l₂.Nodup)
    (hmem : ∀ k, k ∈ l₁ ↔ k ∈ l₂) :
    List.insertionSort strLe l₁ = List.insertionSort strLe l₂ := by
  have hp : List.Perm l₁ l₂ := (List.perm_ext_iff_of_nodup h₁ h₂).mpr hmem
  exact List.eq_of_perm_of_sorted
    (((List.perm_insertionSort strLe l₁).trans hp).trans
      (List.perm_insertionSort strLe l₂).symm)
    (List.sorted_insertionSort strLe l₁)
    (List.sorted_insertionSort strLe l₂)

theorem getState_sorted (status : Status) (prefs : Option Prefs)
    (lock : NetworkLockStatus) (st : State)
    (h : GetState status prefs lock = .ok (st, none)) :
    List.Sorted peerLe st.ExitNodes ∧ List.Sorted peerLe st.MyNodes ∧
    List.Sorted peerLe st.TaggedNodes ∧
    (∀ kv ∈ st.OwnedNodes, List.Sorted peerLe kv.2) ∧
    List.Sorted strLe st.OwnedNodeKeys := by
  rcases GetState_ok h with ⟨bs, acc, _, _, hst⟩
  have hE : st.ExitNodes = sortNodes acc.ExitNodes := by rw [hst]; rfl
  have hM : st.MyNodes = sortNodes acc.MyNodes := by rw [hst]; rfl
  have hT : st.TaggedNodes = sortNodes acc.TaggedNodes := by rw [hst]; rfl
  have hO : st.OwnedNodes = sortOwned acc.OwnedNodes := by rw [hst]; rfl
  have hK : st.OwnedNodeKeys = List.insertionSort strLe (acc.OwnedNodes.map Prod.fst) := by
    rw [hst]; rfl
  refine ⟨?_, ?_, ?_, ?_, ?_⟩
  · rw [hE]; exact List.sorted_insertionSort peerLe _
  · rw [hM]; exact List.sorted_insertionSort peerLe _
  · rw [hT]; exact List.sorted_insertionSort peerLe _
  · intro kv hkv
    rw [hO] at hkv
    rcases List.mem_map.mp hkv with ⟨kv₀, _, rfl⟩
    exact List.sorted_insertionSort peerLe _
  · rw [hK]; exact List.sorted_insertionSort strLe _

theorem getState_peer_order_independent
    (status status' : Status) (prefs : Option Prefs) (lock : NetworkLockStatus)
    (st st' : State)
    (h : GetState status prefs lock = .ok (st, none))
    (h' : GetState status' prefs lock = .ok (st', none))
    (hself : status'.Self = status.Self) (huser : status'.User = status.User)
    (hperm : List.Perm status'.Peer status.Peer)
    (hinj : ∀ p ∈ status.Peer, ∀ q ∈ status.Peer, PeerName p = PeerName q → p = q) :
    st'.ExitNodes = st.ExitNodes ∧ st'.MyNodes = st.MyNodes ∧
    st'.TaggedNodes = st.TaggedNodes ∧ st'.OwnedNodeKeys = st.OwnedNodeKeys ∧
    (∀ k, mapLookup st'.OwnedNodes k = mapLookup st.OwnedNodes k) := by
  rcases GetState_ok h with ⟨bs, acc, hbs, hc, hst⟩
  rcases GetState_ok h' with ⟨bs', acc', hbs', hc', hst'⟩
  rw [huser, hself] at hc'
  have hE0 : st.ExitNodes = sortNodes acc.ExitNodes := by rw [hst]; rfl
  have hE0' : st'.ExitNodes = sortNodes acc'.ExitNodes := by rw [hst']; rfl
  have hM0 : st.MyNodes = sortNodes acc.MyNodes := by rw [hst]; rfl
  have hM0' : st'.MyNodes = sortNodes acc'.MyNodes := by rw [hst']; rfl
  have hT0 : st.TaggedNodes = sortNodes acc.TaggedNodes := by rw [hst]; rfl
  have hT0' : st'.TaggedNodes = sortNodes acc'.TaggedNodes := by rw [hst']; rfl
  have hK0 : st.OwnedNodeKeys = List.insertionSort strLe (acc.OwnedNodes.map Prod.fst) := by
    rw [hst]; rfl
  have hK0' : st'.OwnedNodeKeys =
      List.insertionSort strLe (acc'.OwnedNodes.map Prod.fst) := by
    rw [hst']; rfl
  have hO0 : st.OwnedNodes = sortOwned acc.OwnedNodes := by rw [hst]; rfl
  have hO0' : st'.OwnedNodes = sortOwned acc'.OwnedNodes := by rw [hst']; rfl
  have hmemP : ∀ a : PeerStatus, a ∈ status'.Peer → a ∈ status.Peer :=
    fun a ha => hperm.mem_iff.mp ha
  have hEeq : st'.ExitNodes = st.ExitNodes := by
    have hEf : acc.ExitNodes = status.Peer.filter (fun p => p.ExitNodeOption) := by
      simpa [initAcc] using classify_exit_filter hc
    have hEf' : acc'.ExitNodes = status'.Peer.filter (fun p => p.ExitNodeOption) := by
      simpa [initAcc] using classify_exit_filter hc'
    rw [hE0, hE0', hEf, hEf']
    exact sortNodes_eq_of_perm (hperm.filter _)
      (fun a b ha hb hn =>
        hinj a (hmemP a (List.mem_of_mem_filter ha)) b (List.mem_of_mem_filter hb) hn)
  cases hselfc : status.Self with
  | none =>
    rw [hselfc] at hc hc'
    have hn := classify_none_self hc
    have hn' := classify_none_self hc'
    refine ⟨hEeq, ?_, ?_, ?_, ?_⟩
    · rw [hM0, hM0', hn.1, hn'.1]
    · rw [hT0, hT0', hn.2.1, hn'.2.1]
    · rw [hK0, hK0', hn.2.2, hn'.2.2]
    · intro k
      rw [hO0, hO0', hn.2.2, hn'.2.2]
  | some self =>
    rw [hselfc] at hc hc'
    have hMeq : st'.MyNodes = st.MyNodes := by
      have hf : acc.MyNodes = status.Peer.filter
          (fun p => !p.ExitNodeOption && decide (p.UserID = self.UserID)) := by
        simpa [initAcc] using classify_my_filter hc
      have hf' : acc'.MyNodes = status'.Peer.filter
          (fun p => !p.ExitNodeOption && decide (p.UserID = self.UserID)) := by
        simpa [initAcc] using classify_my_filter hc'
      rw [hM0, hM0', hf, hf']
      exact sortNodes_eq_of_perm (hperm.filter _)
        (fun a b ha hb hn =>
          hinj a (hmemP a (List.mem_of_mem_filter ha)) b (List.mem_of_mem_filter hb) hn)
    have hTeq : st'.TaggedNodes = st.TaggedNodes := by
      have hf : acc.TaggedNodes = status.Peer.filter
          (fun p => !p.ExitNodeOption && !decide (p.UserID = self.UserID) &&
            p.IsTagged) := by
        simpa [initAcc] using classify_tagged_filter hc
      have hf' : acc'.TaggedNodes = status'.Peer.filter
          (fun p => !p.ExitNodeOption && !decide (p.UserID = self.UserID) &&
            p.IsTagged) := by
        simpa [initAcc] using classify_tagged_filter hc'
      rw [hT0, hT0', hf, hf']
      exact sortNodes_eq_of_perm (hperm.filter _)
        (fun a b ha hb hn =>
          hinj a (hmemP a (List.mem_of_mem_filter ha)) b (List.mem_of_mem_filter hb) hn)
    have hbf : ∀ k, bucketOf acc.OwnedNodes k = status.Peer.filter
        (fun p => !p.ExitNodeOption && !decide (p.UserID = self.UserID) && !p.IsTagged &&
          decide (accountNameFor status.User p.UserID = k)) := by
      intro k
      simpa [initAcc, bucketOf, mapLookup] using classify_bucket_filter hc k
    have hbf' : ∀ k, bucketOf acc'.OwnedNodes k = status'.Peer.filter
        (fun p => !p.ExitNodeOption && !decide (p.UserID = self.UserID) && !p.IsTagged &&
          decide (accountNameFor status.User p.UserID = k)) := by
      intro k
      simpa [initAcc, bucketOf, mapLookup] using classify_bucket_filter hc' k
    have hfe : ∀ k, (bucketOf acc'.OwnedNodes k = [] ↔ bucketOf acc.OwnedNodes k = []) := by
      intro k
      rw [hbf k, hbf' k]
      have hpf := hperm.filter
        (fun p => !p.ExitNodeOption && !decide (p.UserID = self.UserID) && !p.IsTagged &&
          decide (accountNameFor status.User p.UserID = k))
      constructor
      · intro he
        have h0 : List.Perm ([] : List PeerStatus)
            (status.Peer.filter
              (fun p => !p.ExitNodeOption && !decide (p.UserID = self.UserID) &&
                !p.IsTagged && decide (accountNameFor status.User p.UserID = k))) :=
          he ▸ hpf
        exact (h0.symm).eq_nil
      · intro he
        have h0 : List.Perm
            (status'.Peer.filter
              (fun p => !p.ExitNodeOption && !decide (p.UserID = self.UserID) &&
                !p.IsTagged && decide (accountNameFor status.User p.UserID = k)))
            ([] : List PeerStatus) :=
          he ▸ hpf
        exact h0.eq_nil
    have hlk := classify_lookup_eq_bucket hc
    have hlk' := classify_lookup_eq_bucket hc'
    have hBeq : ∀ k, mapLookup st'.OwnedNodes k = mapLookup st.OwnedNodes k := by
      intro k
      rw [hO0, hO0', mapLookup_sortOwned, mapLookup_sortOwned, hlk k, hlk' k]
      by_cases hb : bucketOf acc.OwnedNodes k = []
      · rw [if_pos hb, if_pos ((hfe k).mpr hb)]
      · have hb' : ¬ bucketOf acc'.OwnedNodes k = [] := fun he => hb ((hfe k).mp he)
        rw [if_neg hb, if_neg hb']
        have hsort : sortNodes (bucketOf acc'.OwnedNodes k) =
            sortNodes (bucketOf acc.OwnedNodes k) := by
          rw [hbf k, hbf' k]
          exact sortNodes_eq_of_perm (hperm.filter _)
            (fun a b ha hbm hn =>
              hinj a (hmemP a (List.mem_of_mem_filter ha)) b
                (List.mem_of_mem_filter hbm) hn)
        show some (sortNodes (bucketOf acc'.OwnedNodes k)) =
          some (sortNodes (bucketOf acc.OwnedNodes k))
        rw [hsort]
    have hnd : (acc.OwnedNodes.map Prod.fst).Nodup := classify_keys_nodup hc List.nodup_nil
    have hnd' : (acc'.OwnedNodes.map Prod.fst).Nodup :=
      classify_keys_nodup hc' List.nodup_nil
    have hkeyiff : ∀ k, (k ∈ acc.OwnedNodes.map Prod.fst ↔
        ¬ bucketOf acc.OwnedNodes k = []) := by
      intro k
      constructor
      · intro hk hb
        have h1 : mapLookup acc.OwnedNodes k ≠ none :=
          fun hnone => (mapLookup_eq_none_iff _ _).mp hnone hk
        rw [hlk k, if_pos hb] at h1
        exact h1 rfl
      · intro hb
        by_contra hk
        have h1 : mapLookup acc.OwnedNodes k = none := (mapLookup_eq_none_iff _ _).mpr hk
        rw [hlk k, if_neg hb] at h1
        exact Option.noConfusion h1
    have hkeyiff' : ∀ k, (k ∈ acc'.OwnedNodes.map Prod.fst ↔
        ¬ bucketOf acc'.OwnedNodes k = []) := by
      intro k
      constructor
      · intro hk hb
        have h1 : mapLookup acc'.OwnedNodes k ≠ none :=
          fun hnone => (mapLookup_eq_none_iff _ _).mp hnone hk
        rw [hlk' k, if_pos hb] at h1
        exact h1 rfl
      · intro hb
        by_contra hk
        have h1 : mapLookup acc'.OwnedNodes k = none := (mapLookup_eq_none_iff _ _).mpr hk
        rw [hlk' k, if_neg hb] at h1
        exact Option.noConfusion h1
    have hKeq : st'.OwnedNodeKeys = st.OwnedNodeKeys := by
      rw [hK0, hK0']
      refine sortKeys_eq_of_mem_iff hnd' hnd ?_
      intro k
      rw [hkeyiff' k, hkeyiff k]
      exact not_congr (hfe k)
    exact ⟨hEeq, hMeq, hTeq, hKeq, hBeq⟩

/-- C3 counterexample: two iteration orders of one two-peer map (all other
status fields identical, so the same input status) whose two distinct
exit-capable peers share a display name; both runs succeed, yet the
`ExitNodes` sequences differ, refuting byte-identical ordering across runs
in the presence of display-name ties. -/
theorem C3_counterexample :
    List.Perm statusTie1.Peer statusTie2.Peer ∧
    statusTie1.BackendState = statusTie2.BackendState ∧
    statusTie1.AuthURL = statusTie2.AuthURL ∧
    statusTie1.Version = statusTie2.Version ∧
    statusTie1.Self = statusTie2.Self ∧
    statusTie1.User = statusTie2.User ∧
    statusTie1.ExitNodeStatus = statusTie2.ExitNodeStatus ∧
    PeerName peerTieA = PeerName peerTieB ∧ peerTieA ≠ peerTieB ∧
    (GetState statusTie1 none lockOff).map (fun r => r.1.ExitNodes) ≠
      (GetState statusTie2 none lockOff).map (fun r => r.1.ExitNodes) := by
  decide

/-- C3 (amended): every output peer sequence of `GetState` — `ExitNodes`,
`MyNodes`, `TaggedNodes`, each per-account sequence, and `OwnedNodeKeys` —
is sorted by the display-name comparator in non-decreasing order, and the
output is a deterministic function of the status including the iteration
order of the peer map; when no two distinct peers share a display name, the
ordering of every sequence is moreover independent of the iteration order.
(When display names tie, different iteration orders of the same map may
produce different orderings: Go map iteration order is unspecified and
`slices.SortFunc` is not guaranteed stable.) -/
theorem C3_sorted_and_deterministic :
    (∀ status prefs lock st, GetState status prefs lock = .ok (st, none) →
      List.Sorted peerLe st.ExitNodes ∧ List.Sorted peerLe st.MyNodes ∧
      List.Sorted peerLe st.TaggedNodes ∧
      (∀ kv ∈ st.OwnedNodes, List.Sorted peerLe kv.2) ∧
      List.Sorted strLe st.OwnedNodeKeys) ∧
    (∀ status status' prefs lock st st',
      GetState status prefs lock = .ok (st, none) →
      GetState status' prefs lock = .ok (st', none) →
      status'.Self = status.Self → status'.User = status.User →
      List.Perm status'.Peer status.Peer →
      (∀ p ∈ status.Peer, ∀ q ∈ status.Peer, PeerName p = PeerName q → p = q) →
      st'.ExitNodes = st.ExitNodes ∧ st'.MyNodes = st.MyNodes ∧
      st'.TaggedNodes = st.TaggedNodes ∧ st'.OwnedNodeKeys = st.OwnedNodeKeys ∧
      (∀ k, mapLookup st'.OwnedNodes k = mapLookup st.OwnedNodes k)) :=
  ⟨getState_sorted,
   fun status status' prefs lock st st' h h' hself huser hperm hinj =>
     getState_peer_order_independent status status' prefs lock st st' h h'
       hself huser hperm hinj⟩

/-- C3 witness: the theorem applied at `statusEx` and at `statusExPerm` (the
same peer map under a different iteration order, all display names
distinct). -/
theorem C3_sorted_and_deterministic_witness :
    GetState statusEx none lockOn = .ok (stEx, none) ∧
    GetState statusExPerm none lockOn = .ok (stExPerm, none) ∧
    (List.Sorted peerLe stEx.ExitNodes ∧ List.Sorted peerLe stEx.MyNodes ∧
      List.Sorted peerLe stEx.TaggedNodes ∧
      (∀ kv ∈ stEx.OwnedNodes, List.Sorted peerLe kv.2) ∧
      List.Sorted strLe stEx.OwnedNodeKeys) ∧
    (stExPerm.ExitNodes = stEx.ExitNodes ∧ stExPerm.MyNodes = stEx.MyNodes ∧
      stExPerm.TaggedNodes = stEx.TaggedNodes ∧
      stExPerm.OwnedNodeKeys = stEx.OwnedNodeKeys ∧
      (∀ k, mapLookup stExPerm.OwnedNodes k = mapLookup stEx.OwnedNodes k)) :=
  ⟨by decide, by decide,
   C3_sorted_and_deterministic.1 statusEx none lockOn stEx (by decide),
   C3_sorted_and_deterministic.2 statusEx statusExPerm none lockOn stEx stExPerm
     (by decide) (by decide) (by decide) (by decide) (by decide) (by decide)⟩

/-- C1 witness: the theorem applied at the concrete status `statusEx`. -/
theorem C1_partition_witness :
    GetState statusEx none lockOn = .ok (stEx, none) ∧
    (List.Perm (stEx.ExitNodes ++ stEx.MyNodes ++ stEx.TaggedNodes ++
        joinOwned stEx.OwnedNodes) statusEx.Peer ∧
     stEx.ExitNodes.length + stEx.MyNodes.length + stEx.TaggedNodes.length +
       ((stEx.OwnedNodes.map (fun kv => kv.2.length)).sum) = statusEx.Peer.length) :=
  ⟨by decide, C1_partition statusEx none lockOn stEx (by decide)⟩

end Libts
